import Mathlib

/-!
Command-line shell (`src/main.c`): embedding and verified properties.

The C program is embedded shallowly.

* A byte is a `Nat`; a C string is the list of bytes before the terminating NUL (`Str`);
  a character array is the list of all its bytes (`Buf`), read as a string with `cstr`.
* The globals `history`, `history_count`, `history_index` are the fields of `Globals`.
* `strtok` is modelled on the string that starts at its saved pointer; the parser loop
  `input_parse_loop` runs on fuel, and `input_parse` supplies enough of it.
* The process engine of `main` is a function from the values returned to one process by
  `fork` and `execvp` to the list of calls that process makes and to what it does next.
* `noncanon_states` lists the states of the editor at the head of each iteration of its
  loop; `main_body` is one pass through the loop body of `main` on a line the editor
  returned, with `chdir` given by the file system `Fs`.
-/

namespace Shell

/-! ## Constants -/

/-- Max length of a command line (`#define MAX_LINE 80`). -/
def MAX_LINE : Nat := 80

/-- Max number of commands in the history (`#define MAX_HISTORY 5`). -/
def MAX_HISTORY : Nat := 5

/-! ## C strings and character arrays -/

/-- The bytes of a C string, the terminating NUL excluded. -/
abbrev Str := List Nat

/-- The bytes of a character array, all of them. -/
abbrev Buf := List Nat

/-- The bytes of a string literal. -/
def bytes (s : String) : Str := s.toList.map Char.toNat

/-- The C string stored in a character array: the bytes before the first NUL. -/
def cstr : Buf → Str
  | [] => []
  | c :: rest => if c = 0 then [] else c :: cstr rest

/-- Result of `strlen`. -/
def strlen (b : Buf) : Nat := (cstr b).length

/-- Whether `strcmp(a, b) == 0`. -/
def streq (a b : Buf) : Bool := decide (cstr a = cstr b)

/-- The destination array after `strcpy(dst, src)`: the string of `src` and its NUL are
written over the first bytes of `dst`. A copy that does not fit in `dst` is undefined
behaviour in C; here the result is then longer than `dst`. -/
def strcpy (dst src : Buf) : Buf :=
  cstr src ++ 0 :: dst.drop ((cstr src).length + 1)

/-- The array after `memset(chars, 0, n)`. -/
def memset0 (chars : Buf) (n : Nat) : Buf :=
  List.replicate n 0 ++ chars.drop n

/-! ## History store -/

/-- The global variables of the program: `char history[MAX_HISTORY][MAX_LINE]`,
`int history_count`, `int history_index`. The two counters never become negative. -/
structure Globals where
  history : List Buf
  history_count : Nat
  history_index : Nat
  deriving DecidableEq, Repr

/-- Row `i` of the `history` array. -/
def Globals.row (g : Globals) (i : Nat) : Buf := g.history.getD i []

/-- The body of the loop `for (int i = 1; i < MAX_HISTORY; i++)` of `add_history`:
`strcpy(history[i - 1], history[i])`. -/
def shift_row (h : List Buf) (i : Nat) : List Buf :=
  h.set (i - 1) (strcpy (h.getD (i - 1) []) (h.getD i []))

/-- The function `add_history` of the source. -/
def add_history (g : Globals) (input : Buf) : Globals :=
  if g.history_count < MAX_HISTORY then
    { g with
      history := g.history.set g.history_count (strcpy (g.row g.history_count) input)
      history_count := g.history_count + 1 }
  else
    let shifted := (List.range' 1 (MAX_HISTORY - 1)).foldl shift_row g.history
    { g with
      history := shifted.set (MAX_HISTORY - 1) (strcpy (shifted.getD (MAX_HISTORY - 1) []) input) }

/-- The strings held by the store: rows `0 .. history_count - 1`, oldest first. -/
def Globals.entries (g : Globals) : List Str :=
  (g.history.take g.history_count).map cstr

/-- The store is well formed: `MAX_HISTORY` rows of `MAX_LINE` bytes each, and every
stored string ends inside its row. -/
def Globals.wf (g : Globals) : Prop :=
  g.history.length = MAX_HISTORY ∧ (∀ b ∈ g.history, b.length = MAX_LINE) ∧
    ∀ s ∈ g.entries, s.length + 1 ≤ MAX_LINE

/-- The state after `add_history` is called on each array of `inputs` in turn. -/
def add_all (g : Globals) (inputs : List Buf) : Globals :=
  inputs.foldl add_history g

/-- The last `k` elements of a list. -/
def lastN {α : Type} (k : Nat) (l : List α) : List α := l.drop (l.length - k)

/-- The zero-initialised `history` array with no entry. -/
def empty_store : Globals :=
  ⟨List.replicate 5 (List.replicate 80 0), 0, 0⟩

/-- Six one-letter lines `a` .. `f`, each in an 80-byte array. -/
def six_lines : List Buf :=
  [97, 98, 99, 100, 101, 102].map (fun c => c :: List.replicate 79 0)


/-! ## Line editor -/

/-- The state of one call of `noncanon_input`: the globals (of which the editor writes
`history_index` only), the caller's array `chars`, the local `index`, and the bytes written
to standard output so far. -/
structure Edit where
  g : Globals
  chars : Buf
  index : Nat
  out : List Nat
  deriving DecidableEq, Repr

/-- The string built by `snprintf(clear_line, sizeof(clear_line), "\r%*s\r", MAX_LINE, "")`:
a carriage return, `MAX_LINE` blanks, a carriage return. -/
def clear_line : Str := 13 :: (List.replicate MAX_LINE 32 ++ [13])

/-- The function `get_history` of the source: clears the terminal line, prints the prompt
again, copies `history[history_index]` into `chars`, sets `index` to its length and prints
it. -/
def get_history (prompt : Str) (e : Edit) : Edit :=
  let chars := strcpy e.chars (e.g.row e.g.history_index)
  { e with
    chars := chars
    index := strlen chars
    out := e.out ++ clear_line ++ prompt ++ cstr chars }

/-- The up-arrow branch of `noncanon_input` (`strcmp(seq, "[A") == 0`). -/
def key_up (prompt : Str) (e : Edit) : Edit :=
  if e.g.history_count > 0 ∧ e.g.history_index > 0 then
    get_history prompt { e with g := { e.g with history_index := e.g.history_index - 1 } }
  else e

/-- The down-arrow branch of `noncanon_input` (`strcmp(seq, "[B") == 0`). The source
compares with `history_count - 1` on `int`; as `history_index` is never negative,
`history_index < history_count - 1` is `history_index + 1 < history_count` and
`history_index == history_count - 1` is `history_index + 1 = history_count`. -/
def key_down (prompt : Str) (e : Edit) : Edit :=
  if e.g.history_count > 0 ∧ e.g.history_index + 1 < e.g.history_count then
    get_history prompt { e with g := { e.g with history_index := e.g.history_index + 1 } }
  else if e.g.history_index + 1 = e.g.history_count then
    { e with
      g := { e.g with history_index := e.g.history_count }
      chars := memset0 e.chars MAX_LINE
      index := 0
      out := e.out ++ clear_line ++ prompt }
  else e

/-- The escape branch of `noncanon_input` once the two bytes `s0`, `s1` that follow byte 27
are read into `seq`: `seq` is compared with the strings `[A` and `[B`. -/
def key_escape (prompt : Str) (s0 s1 : Nat) (e : Edit) : Edit :=
  if cstr [s0, s1, 0] = [91, 65] then key_up prompt e
  else if cstr [s0, s1, 0] = [91, 66] then key_down prompt e
  else e

/-- The erase branch of `noncanon_input` (byte 127). -/
def key_erase (e : Edit) : Edit :=
  if e.index > 0 then { e with index := e.index - 1, out := e.out ++ [8, 32, 8] } else e

/-- The last branch of `noncanon_input`: `chars[index++] = c` and the echo of `c`. -/
def key_char (c : Nat) (e : Edit) : Edit :=
  { e with chars := e.chars.set e.index c, index := e.index + 1, out := e.out ++ [c] }

/-- The loop `while (index < MAX_LINE - 1)` of `noncanon_input`, reading its bytes from the
front of `stream`. It returns the state at the exit of the loop and the bytes not read, or
`none` when the stream ends before the loop does (the `read` then has no byte to deliver). -/
def noncanon_loop (prompt : Str) : List Nat → Edit → Option (Edit × List Nat)
  | [], e => if e.index < MAX_LINE - 1 then none else some (e, [])
  | c :: rest, e =>
    if e.index < MAX_LINE - 1 then
      if c = 10 then some (e, rest)
      else if c = 127 then noncanon_loop prompt rest (key_erase e)
      else if c = 27 then
        match rest with
        | s0 :: s1 :: rest2 => noncanon_loop prompt rest2 (key_escape prompt s0 s1 e)
        | _ => none
      else noncanon_loop prompt rest (key_char c e)
    else some (e, c :: rest)

/-- The state of the editor at the entry of the loop of `noncanon_input`: `index = 0`,
`chars` cleared, `history_index = history_count`. -/
def edit_init (g : Globals) (chars : Buf) : Edit :=
  { g := { g with history_index := g.history_count }
    chars := memset0 chars MAX_LINE
    index := 0
    out := [] }

/-- The end of `noncanon_input`: `chars[index] = '\0'` and the newline written. -/
def edit_finish (e : Edit) : Edit :=
  { e with chars := e.chars.set e.index 0, out := e.out ++ [10] }

/-- The function `noncanon_input` of the source, on the keystroke bytes `stream`: the final
state, whose `chars` is the array returned, and the bytes left unread. -/
def noncanon_input (prompt : Str) (g : Globals) (chars : Buf) (stream : List Nat) :
    Option (Edit × List Nat) :=
  (noncanon_loop prompt stream (edit_init g chars)).map (fun r => (edit_finish r.1, r.2))

/-- The editor shows entry `j` of the store `g`: the history cursor is `j`, the string in
`chars` is that of `history[j]` and `index` is its length. -/
def Showing (g : Globals) (j : Nat) (e : Edit) : Prop :=
  e.g = { g with history_index := j } ∧ cstr e.chars = cstr (g.row j) ∧
    e.index = strlen (g.row j)

/-! ## Pre-parse checks of `main` -/

/-- The function `input_prev` of the source: the value returned, the array `input`
afterwards, the globals afterwards and the text printed. -/
def input_prev (g : Globals) (input : Buf) : Nat × Buf × Globals × Str :=
  if cstr input = bytes "!!" then
    if g.history_count = 0 then
      (1, input, g, bytes "No commands in history.\n")
    else
      let input2 := strcpy input (g.row (g.history_count - 1))
      (0, input2, g, bytes "Previous command: \"" ++ cstr input2 ++ bytes "\"\n")
  else (0, input, g, [])

/-- A store with the single entry `ls`. -/
def one_entry_store : Globals :=
  ⟨(bytes "ls" ++ List.replicate 78 0) :: List.replicate 4 (List.replicate 80 0), 1, 1⟩

/-- The array `input` holding the line `!!`. -/
def bang_input : Buf := bytes "!!" ++ List.replicate 78 0

/-- The bytes of `n` presses of an arrow key whose final byte is `b`: `n` times the
sequence 27, `[`, `b`. -/
def arrows (b : Nat) : Nat → List Nat
  | 0 => []
  | n + 1 => 27 :: 91 :: b :: arrows b n

/-- A store with the three entries `ls`, `pwd`, `date`. -/
def three_entry_store : Globals :=
  ⟨[bytes "ls" ++ List.replicate 78 0, bytes "pwd" ++ List.replicate 77 0,
    bytes "date" ++ List.replicate 76 0, List.replicate 80 0, List.replicate 80 0], 3, 0⟩

/-! ## Command parser -/

/-- The part of `strtok(.., " ")` that skips the delimiters in front of a token. -/
def skip_spaces : Str → Str
  | [] => []
  | c :: rest => if c = 32 then skip_spaces rest else c :: rest

/-- The part of `strtok(.., " ")` that scans a token: the bytes up to the next space or the
end of the string, and the string that follows that space (the space is overwritten with a
NUL, the saved pointer is set behind it). -/
def take_token : Str → Str × Str
  | [] => ([], [])
  | c :: rest => if c = 32 then ([], rest) else ((c :: (take_token rest).1), (take_token rest).2)

/-- One call of `strtok` with the delimiter string `" "`, on the string at the saved
pointer: the token returned (`none` for `NULL`) and the string at the new saved pointer. -/
def strtok (s : Str) : Option Str × Str :=
  match skip_spaces s with
  | [] => (none, [])
  | c :: rest => (some (take_token (c :: rest)).1, (take_token (c :: rest)).2)

/-- What `input_parse` writes through its pointer arguments, and its local `token_index`:
the array `args` (`none` for `NULL`), `bkgd`, the two redirection files, `pipe_index`. -/
structure Parsed where
  args : List (Option Str)
  bkgd : Nat
  inpRedirFile : Option Str
  outpRedirFile : Option Str
  pipe_index : Int
  token_index : Nat
  deriving DecidableEq, Repr

/-- The values `main` gives to the variables before it calls `input_parse`: `bkgd = 0`,
both files `NULL`, `pipe_index = -1`; `args` keeps what the previous line left in it. -/
def parse_init (args : List (Option Str)) : Parsed :=
  { args := args, bkgd := 0, inpRedirFile := none, outpRedirFile := none,
    pipe_index := -1, token_index := 0 }

/-- The loop `while (token != NULL)` of `input_parse`, with `token` the current token and
`saved` the string at the saved pointer of `strtok`. Each iteration spends one unit of
fuel; `none` means the fuel ran out. -/
def input_parse_loop : Nat → Option Str → Str → Parsed → Option Parsed
  | 0, _, _, _ => none
  | _ + 1, none, _, p => some p
  | fuel + 1, some token, saved, p =>
    if token = bytes "&" then
      input_parse_loop fuel (strtok saved).1 (strtok saved).2 { p with bkgd := 1 }
    else if token = bytes "<" then
      let next := strtok saved
      let last := strtok next.2
      input_parse_loop fuel last.1 last.2 { p with inpRedirFile := next.1 }
    else if token = bytes ">" then
      let next := strtok saved
      let last := strtok next.2
      input_parse_loop fuel last.1 last.2 { p with outpRedirFile := next.1 }
    else if token = bytes "|" then
      input_parse_loop fuel (strtok saved).1 (strtok saved).2
        { p with
          pipe_index := p.token_index
          args := p.args.set p.token_index none
          token_index := p.token_index + 1 }
    else
      input_parse_loop fuel (strtok saved).1 (strtok saved).2
        { p with
          args := p.args.set p.token_index (some token)
          token_index := p.token_index + 1 }

/-- The function `input_parse` of the source on the array `input`, from the values `p` of
the variables its pointers refer to: `token_index = 0`, the first `strtok`, the loop, the
final `args[token_index] = NULL`. The loop runs at most once per byte of the line, so the
fuel given is enough. -/
def input_parse (input : Buf) (p : Parsed) : Option Parsed :=
  (input_parse_loop (strlen input + 1) (strtok (cstr input)).1 (strtok (cstr input)).2
      { p with token_index := 0 }).map
    (fun r => { r with args := r.args.set r.token_index none })

/-- The argument vector that `execvp` reads at `&args[start]`: the entries from `start` up
to the first `NULL`. -/
def argv_at : List (Option Str) → Nat → List Str
  | [], _ => []
  | none :: _, 0 => []
  | some t :: rest, 0 => t :: argv_at rest 0
  | _ :: rest, start + 1 => argv_at rest start

/-- The array `char* args[MAX_LINE]` before the first line is parsed. -/
def args_blank : List (Option Str) := List.replicate MAX_LINE none

/-- An array holding the line `s`, padded with NUL bytes to `MAX_LINE` bytes. -/
def line_buf (s : String) : Buf := bytes s ++ List.replicate (MAX_LINE - (bytes s).length) 0

/-- The tokens that the first `n` calls of `strtok` return on the string `s`, up to the
first `NULL`. -/
def tokens_fuel : Nat → Str → List Str
  | 0, _ => []
  | n + 1, s =>
    match strtok s with
    | (none, _) => []
    | (some t, rest) => t :: tokens_fuel n rest

/-- The tokens that successive calls of `strtok` return on the string `s`; a token has at
least one byte, so `s.length` calls reach the `NULL`. -/
def tokens (s : Str) : List Str := tokens_fuel s.length s

/-- The effect of the loop of `input_parse` on the variables, as a function of the list of
the tokens that `strtok` delivers: the token after `<` or `>` is taken as the file
whatever it is, and a `<` or `>` with no token after it stores `NULL`. -/
def parse_tokens : List Str → Parsed → Parsed
  | [], p => p
  | t :: ts, p =>
    if t = bytes "&" then parse_tokens ts { p with bkgd := 1 }
    else if t = bytes "<" then
      match ts with
      | [] => { p with inpRedirFile := none }
      | f :: ts2 => parse_tokens ts2 { p with inpRedirFile := some f }
    else if t = bytes ">" then
      match ts with
      | [] => { p with outpRedirFile := none }
      | f :: ts2 => parse_tokens ts2 { p with outpRedirFile := some f }
    else if t = bytes "|" then
      parse_tokens ts
        { p with
          pipe_index := p.token_index
          args := p.args.set p.token_index none
          token_index := p.token_index + 1 }
    else
      parse_tokens ts
        { p with
          args := p.args.set p.token_index (some t)
          token_index := p.token_index + 1 }

/-- The result of `input_parse` computed from the token list of the line. -/
def parse_line (s : Str) (p : Parsed) : Parsed :=
  let r := parse_tokens (tokens s) { p with token_index := 0 }
  { r with args := r.args.set r.token_index none }

/-- An ordinary token: not one of `&`, `<`, `>`, `|`. -/
def ordinary (t : Str) : Prop :=
  t ≠ bytes "&" ∧ t ≠ bytes "<" ∧ t ≠ bytes ">" ∧ t ≠ bytes "|"

/-- A token as `strtok` can return it: at least one byte, no space. -/
def is_token (t : Str) : Prop := t ≠ [] ∧ 32 ∉ t

/-- The line made of the tokens `ts` separated by single spaces. -/
def join_sp : List Str → Str
  | [] => []
  | [t] => t
  | t :: u :: ts => t ++ 32 :: join_sp (u :: ts)

instance (t : Str) : Decidable (is_token t) := by
  unfold is_token
  infer_instance

instance (t : Str) : Decidable (ordinary t) := by
  unfold ordinary
  infer_instance

/-- The parts of a line without pipe, in the order the loop of `input_parse` meets them: an
ordinary token, an `&`, a `<` with the token after it, a `>` with the token after it. -/
inductive Item where
  | word (t : Str)
  | amp
  | input (f : Str)
  | output (g : Str)
  deriving DecidableEq, Repr

/-- The tokens of one part of a line. -/
def Item.toks : Item → List Str
  | .word t => [t]
  | .amp => [bytes "&"]
  | .input f => [bytes "<", f]
  | .output g => [bytes ">", g]

/-- The tokens of a line given by its parts. -/
def item_tokens : List Item → List Str
  | [] => []
  | it :: rest => it.toks ++ item_tokens rest

/-- A part is well formed: its tokens are tokens, a word is ordinary, and the token after
`<` or `>` is any token but `|` (the line has no `|` token). -/
def Item.valid : Item → Prop
  | .word t => is_token t ∧ ordinary t
  | .amp => True
  | .input f => is_token f ∧ f ≠ bytes "|"
  | .output g => is_token g ∧ g ≠ bytes "|"

instance (it : Item) : Decidable it.valid := by
  cases it <;> unfold Item.valid <;> infer_instance

/-- The ordinary tokens of a line given by its parts, in their order. -/
def item_words : List Item → List Str
  | [] => []
  | .word t :: rest => t :: item_words rest
  | _ :: rest => item_words rest

/-- The value of `bkgd` after the parts `items`, from the value `cur`. -/
def item_bkgd : List Item → Nat → Nat
  | [], cur => cur
  | .amp :: rest, _ => item_bkgd rest 1
  | _ :: rest, cur => item_bkgd rest cur

/-- The value of `inpRedirFile` after the parts `items`, from the value `cur`. -/
def item_in : List Item → Option Str → Option Str
  | [], cur => cur
  | .input f :: rest, _ => item_in rest (some f)
  | _ :: rest, cur => item_in rest cur

/-- The value of `outpRedirFile` after the parts `items`, from the value `cur`. -/
def item_out : List Item → Option Str → Option Str
  | [], cur => cur
  | .output g :: rest, _ => item_out rest (some g)
  | _ :: rest, cur => item_out rest cur

/-- The files of the `<` pairs of a line given by its parts, in their order. -/
def item_ins : List Item → List Str
  | [] => []
  | .input f :: rest => f :: item_ins rest
  | _ :: rest => item_ins rest

/-- The files of the `>` pairs of a line given by its parts, in their order. -/
def item_outs : List Item → List Str
  | [] => []
  | .output g :: rest => g :: item_outs rest
  | _ :: rest => item_outs rest

/-- Whether the loop of `input_parse`, run on the tokens `ts`, ends on a `<` or `>` that it
treats as an operator and that has no token after it. When it does, a token appended to
`ts` is taken as the file of that operator. -/
def pending : List Str → Bool
  | [] => false
  | t :: ts =>
    if t = bytes "<" ∨ t = bytes ">" then
      match ts with
      | [] => true
      | _ :: ts2 => pending ts2
    else pending ts

/-- The entries that the loop of `input_parse` stores in `args` for the tokens `ts`, in
their order: an ordinary token is stored as itself, a `|` as `NULL`; an `&` stores nothing,
and neither does a `<` or `>` nor the token after it. -/
def stored : List Str → List (Option Str)
  | [] => []
  | t :: ts =>
    if t = bytes "&" then stored ts
    else if t = bytes "<" ∨ t = bytes ">" then
      match ts with
      | [] => []
      | _ :: ts2 => stored ts2
    else if t = bytes "|" then none :: stored ts
    else some t :: stored ts

/-! ## Process engine of `main` -/

/-- The two terminal modes kept in the globals `canon` and `noncanon`. -/
inductive Mode where
  | canon
  | noncanon
  deriving DecidableEq, Repr

/-- The file descriptors the engine handles, named by their origin: the standard ones, the
descriptor returned by `open` for a redirection, the two ends `pipefd[0]`, `pipefd[1]`. -/
inductive Fd where
  | stdin
  | stdout
  | opened
  | pipe_read
  | pipe_write
  deriving DecidableEq, Repr

/-- The calls of the engine that reach the operating system or the terminal. `wait` is
`wait(NULL)`, `waitpid pid` is `waitpid(pid, NULL, 0)`, `open_read` is `open(.., O_RDONLY)`,
`open_write` is `open(.., O_WRONLY | O_CREAT | O_TRUNC, 0644)`, `tcsetattr m` is
`tcsetattr(STDIN_FILENO, TCSAFLUSH, &m)`. -/
inductive Call where
  | fork
  | open_read (path : Str)
  | open_write (path : Str)
  | dup2 (fd target : Fd)
  | close (fd : Fd)
  | execvp (file : Option Str) (argv : List Str)
  | printf (text : Str)
  | exit (status : Nat)
  | wait
  | waitpid (pid : Int)
  | tcsetattr (mode : Mode)
  | pipe
  deriving DecidableEq, Repr

/-- What a process does once it is through the engine for the current line: it goes on
with the next iteration of the loop of `main`, it has terminated through `exit`, or its
image was replaced by a successful `execvp`. -/
inductive Next where
  | loop
  | exited (status : Nat)
  | replaced
  deriving DecidableEq, Repr

/-- The values the operating system returns to one process during the engine: the value
of the first `fork` (`pid`, `pidL`), the value of the second `fork` (`pidR`), and whether
the `execvp` of the left or only command, and that of the right command, return -1. A
successful `execvp` does not return. -/
structure Os where
  fork1 : Int
  fork2 : Int
  exec_left_fails : Bool
  exec_right_fails : Bool
  deriving DecidableEq, Repr

/-- The calls of the `if (inpRedirFile)` block of the child. -/
def redirect_in (r : Parsed) : List Call :=
  match r.inpRedirFile with
  | some f => [Call.open_read f, Call.dup2 Fd.opened Fd.stdin, Call.close Fd.opened]
  | none => []

/-- The calls of the `if (outpRedirFile)` block of the child. -/
def redirect_out (r : Parsed) : List Call :=
  match r.outpRedirFile with
  | some f => [Call.open_write f, Call.dup2 Fd.opened Fd.stdout, Call.close Fd.opened]
  | none => []

/-- The call `execvp(args[i], &args[i])`. -/
def exec_at (r : Parsed) (i : Nat) : Call :=
  Call.execvp (r.args.getD i none) (argv_at r.args i)

/-- The text of `printf("Error: \"%s\" command not found\n", args[0])`; for a `NULL`
`args[0]` the text is the one the C library prints. -/
def not_found_text (r : Parsed) : Str :=
  bytes "Error: \"" ++ (r.args.getD 0 none).getD (bytes "(null)") ++
    bytes "\" command not found\n"

/-- The branch `pipe_index == -1` of `main`, as seen by one process: the calls it makes
and what it does next. -/
def run_simple (r : Parsed) (os : Os) : List Call × Next :=
  if os.fork1 = 0 then
    if os.exec_left_fails then
      ([Call.fork] ++ redirect_in r ++ redirect_out r ++
        [exec_at r 0, Call.printf (not_found_text r), Call.exit 1], Next.exited 1)
    else
      ([Call.fork] ++ redirect_in r ++ redirect_out r ++ [exec_at r 0], Next.replaced)
  else if os.fork1 > 0 then
    if r.bkgd = 0 then ([Call.fork, Call.wait], Next.loop)
    else ([Call.fork], Next.loop)
  else ([Call.fork], Next.loop)

/-- The part of the pipe branch of `main` from the second `fork` on, as seen by one
process. -/
def run_pipe_right (r : Parsed) (os : Os) : List Call × Next :=
  if os.fork2 = 0 then
    let calls := [Call.fork, Call.close Fd.pipe_write, Call.dup2 Fd.pipe_read Fd.stdin,
      Call.close Fd.pipe_read, exec_at r (r.pipe_index + 1).toNat]
    if os.exec_right_fails then (calls, Next.loop) else (calls, Next.replaced)
  else if os.fork2 > 0 then
    ([Call.fork, Call.close Fd.pipe_read, Call.close Fd.pipe_write,
      Call.waitpid os.fork1, Call.waitpid os.fork2, Call.tcsetattr Mode.noncanon], Next.loop)
  else ([Call.fork], Next.loop)

/-- The pipe branch of `main` (`pipe_index != -1`), as seen by one process. The `execvp`
of the left child is followed by no test: when it returns, the process goes on with the
second `fork`. -/
def run_pipe (r : Parsed) (os : Os) : List Call × Next :=
  let start := [Call.tcsetattr Mode.canon, Call.pipe, Call.fork]
  if os.fork1 = 0 then
    let left := [Call.close Fd.pipe_read, Call.dup2 Fd.pipe_write Fd.stdout,
      Call.close Fd.pipe_write, exec_at r 0]
    if os.exec_left_fails then
      (start ++ left ++ (run_pipe_right r os).1, (run_pipe_right r os).2)
    else (start ++ left, Next.replaced)
  else (start ++ (run_pipe_right r os).1, (run_pipe_right r os).2)

/-- The statement `if (pipe_index == -1) .. else ..` that ends the loop body of `main`. -/
def run_command (r : Parsed) (os : Os) : List Call × Next :=
  if r.pipe_index = -1 then run_simple r os else run_pipe r os

/-- Whether the termination of the child `child` lets a blocking wait call return, after
POSIX: `wait(NULL)` and `waitpid` with pid -1 or 0 take any child of the shell (a child
stays in the process group of the shell), `waitpid` with a positive pid takes that child
only. -/
def Call.accepts : Call → Int → Bool
  | .wait, _ => true
  | .waitpid pid, child => decide (pid = child ∨ pid = -1 ∨ pid = 0)
  | _, _ => false

/-! ## States of the line editor -/

/-- The states of the editor at the head of each iteration of the loop of
`noncanon_input` on the bytes `stream`, the first state included, in their order. It
follows `noncanon_loop` branch by branch. -/
def noncanon_states (prompt : Str) : List Nat → Edit → List Edit
  | [], e => [e]
  | c :: rest, e =>
    if e.index < MAX_LINE - 1 then
      if c = 10 then [e]
      else if c = 127 then e :: noncanon_states prompt rest (key_erase e)
      else if c = 27 then
        match rest with
        | s0 :: s1 :: rest2 => e :: noncanon_states prompt rest2 (key_escape prompt s0 s1 e)
        | _ => [e]
      else e :: noncanon_states prompt rest (key_char c e)
    else [e]

/-- The bounds kept by the editor on the store `g`: the history and its count are those of
`g`, the history cursor is at most the count, `index` is at most `MAX_LINE - 1` and `chars`
has its `MAX_LINE` bytes. -/
def Edit.bounded (g : Globals) (e : Edit) : Prop :=
  e.g.history = g.history ∧ e.g.history_count = g.history_count ∧
    e.g.history_index ≤ g.history_count ∧ e.index ≤ MAX_LINE - 1 ∧
    e.chars.length = MAX_LINE

/-- The line that plain editing produces, after the words of the specification: from the
string `s`, left to right, an erase byte (127) removes the last character, if any, and any
other byte is appended. -/
def edit_spec : List Nat → Str → Str
  | [], s => s
  | c :: cs, s => if c = 127 then edit_spec cs s.dropLast else edit_spec cs (s ++ [c])

/-- A byte of plain editing: the erase byte or a printable byte, that is any byte other
than 0, 10 and 27. -/
def plain_key (c : Nat) : Prop := c ≠ 0 ∧ c ≠ 10 ∧ c ≠ 27

instance (c : Nat) : Decidable (plain_key c) := by
  unfold plain_key
  infer_instance

/-- A keystroke stream that recalls the newest history entry, types `x` and ends the
line. -/
def recall_then_type : List Nat := arrows 65 1 ++ [120, 10]

/-- The keystrokes `l`, `x`, erase, `s`, erase, erase, erase, `p`, `w`, `d`. -/
def plain_keys : List Nat := [108, 120, 127, 115, 127, 127, 127, 112, 119, 100]

/-! ## Built-in `cd` and the body of the loop of `main` -/

/-- The file system as `chdir` shows it: from the working directory and a path, the new
working directory when the call succeeds, `none` when it fails; a failed `chdir` returns -1
and leaves the working directory as it is. -/
structure Fs where
  chdir : Str → Str → Option Str

/-- What a call of `input_cd` does: the value returned, the working directory afterwards,
the text printed, and the paths passed to `chdir`. -/
structure CdResult where
  ret : Nat
  cwd : Str
  printed : Str
  dirs : List Str
  deriving DecidableEq, Repr

/-- The function `input_cd` of the source, in the working directory `cwd`. The result is
`none` when `args[0]` is `NULL`: `strcmp` is then called on a null pointer, which is
undefined behaviour. -/
def input_cd (fs : Fs) (cwd : Str) (args : List (Option Str)) : Option CdResult :=
  match args.getD 0 none with
  | none => none
  | some a0 =>
    if a0 = bytes "cd" then
      match args.getD 1 none with
      | none => some ⟨1, cwd, bytes "Error: \"cd\" requires a directory\n", []⟩
      | some dir =>
        match fs.chdir cwd dir with
        | none =>
          some ⟨1, cwd, bytes "Error: \"" ++ dir ++ bytes "\" is not a recognized directory\n",
            [dir]⟩
        | some d => some ⟨1, d, [], [dir]⟩
    else some ⟨0, cwd, [], []⟩

/-- The variables of `main` that live across iterations of its loop, with the globals and
the working directory of the process. -/
structure Session where
  g : Globals
  args : List (Option Str)
  cwd : Str
  should_run : Nat

/-- How one pass through the body of the loop of `main` ends: the loop goes to its next
iteration (`continue` or the end of the body), the loop is left (`break`), the process has
terminated through `exit`, its image was replaced by `execvp`, or the behaviour is
undefined. -/
inductive Flow where
  | next_line
  | leave
  | exited (status : Nat)
  | replaced
  | undefined
  deriving DecidableEq, Repr

/-- The result of one pass through the body of the loop of `main`: the variables
afterwards, how the pass ends, the text printed by the shell, the calls of the engine and
the paths passed to `chdir`. -/
structure Body where
  s : Session
  flow : Flow
  printed : Str
  calls : List Call
  dirs : List Str

/-- The text printed by `input_history`: for each entry its index, a tab, the entry and a
newline. -/
def history_listing (g : Globals) : Str :=
  ((List.range g.history_count).map
    (fun i => bytes (toString i) ++ 9 :: (cstr (g.row i) ++ [10]))).foldr (· ++ ·) []

/-- How the engine ends, as an end of the pass through the loop body. -/
def Flow.of_next : Next → Flow
  | .loop => .next_line
  | .exited status => .exited status
  | .replaced => .replaced

/-- The body of the loop of `main` from the pre-parse checks on, for the array `input`
that `noncanon_input` returned: the test of the empty line, `input_exit`, `input_prev`,
`input_history`, `add_history`, `input_parse`, `input_cd` and the engine. -/
def main_body (fs : Fs) (os : Os) (s : Session) (input : Buf) : Body :=
  if strlen input = 0 then ⟨s, .next_line, [], [], []⟩
  else if cstr input = bytes "exit" then ⟨{ s with should_run := 0 }, .leave, [], [], []⟩
  else
    let prev := input_prev s.g input
    if prev.1 ≠ 0 then ⟨{ s with g := prev.2.2.1 }, .next_line, prev.2.2.2, [], []⟩
    else if cstr prev.2.1 = bytes "history" then
      ⟨{ s with g := prev.2.2.1 }, .next_line, prev.2.2.2 ++ history_listing prev.2.2.1, [], []⟩
    else
      let g2 := add_history prev.2.2.1 prev.2.1
      match input_parse prev.2.1 (parse_init s.args) with
      | none => ⟨{ s with g := g2 }, .undefined, prev.2.2.2, [], []⟩
      | some r =>
        match input_cd fs s.cwd r.args with
        | none => ⟨{ s with g := g2, args := r.args }, .undefined, prev.2.2.2, [], []⟩
        | some cd =>
          if cd.ret ≠ 0 then
            ⟨{ s with g := g2, args := r.args, cwd := cd.cwd }, .next_line,
              prev.2.2.2 ++ cd.printed, [], cd.dirs⟩
          else
            ⟨{ s with g := g2, args := r.args, cwd := cd.cwd }, Flow.of_next (run_command r os).2,
              prev.2.2.2 ++ cd.printed, (run_command r os).1, cd.dirs⟩

/-- The loop of `main` on the lines that the editor returns one after another, each with
the values the operating system returns during its pass; the loop goes on while a pass
ends with the next iteration. -/
def main_lines (fs : Fs) : Session → List (Buf × Os) → Session
  | s, [] => s
  | s, (input, os) :: rest =>
    match (main_body fs os s input).flow with
    | .next_line => main_lines fs (main_body fs os s input).s rest
    | _ => (main_body fs os s input).s

/-- The invariant of the history store over a session: the store is well formed, holds at
most `MAX_HISTORY` entries, and every entry has between 1 and 79 bytes and is none of the
lines `exit`, `history`, `!!`. -/
def Globals.inv (g : Globals) : Prop :=
  g.wf ∧ g.history_count ≤ MAX_HISTORY ∧
    ∀ t ∈ g.entries, 1 ≤ t.length ∧ t.length ≤ 79 ∧
      t ≠ bytes "exit" ∧ t ≠ bytes "history" ∧ t ≠ bytes "!!"

/-- A file system in which every `chdir` fails. -/
def no_dirs : Fs := ⟨fun _ _ => none⟩

/-- A file system whose only directory, besides the current one, is `/tmp`. -/
def tmp_only : Fs := ⟨fun _ dir => if dir = bytes "/tmp" then some (bytes "/tmp") else none⟩

/-- The variables of `main` at the start of the program, in the directory `/home`. -/
def start_session : Session := ⟨empty_store, args_blank, bytes "/home", 1⟩

/-- Values of the operating system for a parent process whose every `fork` succeeds. -/
def parent_os : Os := ⟨4242, 4243, false, false⟩

/-- A session of five lines: `ls`, an empty line, `!!`, `history`, `cd /tmp`. -/
def five_lines : List (Buf × Os) :=
  [(line_buf "ls", parent_os), (line_buf "", parent_os), (line_buf "!!", parent_os),
    (line_buf "history", parent_os), (line_buf "cd /tmp", parent_os)]
/-! ## Lemmas on C strings -/

theorem cstr_append_zero (s : Buf) (r : Buf) : cstr (cstr s ++ 0 :: r) = cstr s := by
  induction s with
  | nil => simp [cstr]
  | cons c s ih =>
    by_cases hc : c = 0
    · simp [cstr, hc]
    · simp [cstr, hc, ih]

theorem cstr_strcpy (dst src : Buf) : cstr (strcpy dst src) = cstr src := by
  unfold strcpy
  exact cstr_append_zero src _

theorem length_strcpy (dst src : Buf) (h : strlen src + 1 ≤ dst.length) :
    (strcpy dst src).length = dst.length := by
  unfold strlen at h
  simp [strcpy]
  omega

/-! ## Lemmas on the history store -/

theorem add_history_step (g : Globals) (input : Buf) (hwf : g.wf)
    (hc : g.history_count ≤ MAX_HISTORY) (hin : strlen input + 1 ≤ MAX_LINE) :
    (add_history g input).history_count = min (g.history_count + 1) MAX_HISTORY ∧
    (add_history g input).entries = lastN MAX_HISTORY (g.entries ++ [cstr input]) ∧
    (add_history g input).wf ∧
    (add_history g input).history_index = g.history_index := by
  obtain ⟨hist, count, hidx⟩ := g
  obtain ⟨hlen, hrows, hent⟩ := hwf
  simp only [MAX_HISTORY, MAX_LINE, Globals.entries] at *
  match hist, hlen with
  | [a, b, c, d, e], _ =>
    simp only [List.mem_cons, List.mem_singleton, forall_eq_or_imp, forall_eq,
      List.not_mem_nil, false_imp_iff, implies_true, and_true] at hrows
    obtain ⟨ha, hb, hc', hd, he⟩ := hrows
    have hfit : ∀ x y : Buf, x.length = 80 → strlen y + 1 ≤ 80 →
        (strcpy x y).length = 80 := by
      intro x y hx hy
      rw [length_strcpy _ _ (by omega), hx]
    unfold strlen at hin hfit
    interval_cases count
    all_goals
      simp [add_history, MAX_HISTORY, MAX_LINE, Globals.entries, Globals.wf, Globals.row,
        lastN, shift_row, List.range', cstr_strcpy] at hent ⊢
    all_goals
      refine ⟨⟨?_, ?_, ?_, ?_, ?_⟩, ?_⟩ <;>
        first
          | assumption
          | omega
          | (apply hfit <;> omega)

theorem lastN_of_length_le {α : Type} (k : Nat) (l : List α) (h : l.length ≤ k) :
    lastN k l = l := by
  unfold lastN
  have : l.length - k = 0 := by omega
  rw [this, List.drop_zero]

theorem lastN_lastN_append {α : Type} (k : Nat) (l r : List α) :
    lastN k (lastN k l ++ r) = lastN k (l ++ r) := by
  by_cases h : l.length ≤ k
  · rw [lastN_of_length_le k l h]
  · unfold lastN
    have h1 : (List.drop (l.length - k) l ++ r).length - k = r.length := by
      simp
      omega
    have h2 : (l ++ r).length - k = (l.length - k) + r.length := by
      simp
      omega
    have h3 : List.drop (l.length - k) (l ++ r) = List.drop (l.length - k) l ++ r :=
      List.drop_append_of_le_length (by omega)
    rw [h1, h2, ← List.drop_drop, h3]

theorem length_entries (g : Globals) (hwf : g.wf) (hc : g.history_count ≤ MAX_HISTORY) :
    g.entries.length = g.history_count := by
  obtain ⟨hlen, -, -⟩ := hwf
  simp [Globals.entries, hlen, hc]

theorem add_all_invariant (inputs : List Buf) :
    ∀ g : Globals, g.wf → g.history_count ≤ MAX_HISTORY →
      (∀ b ∈ inputs, strlen b + 1 ≤ MAX_LINE) →
      (add_all g inputs).history_count = min (g.history_count + inputs.length) MAX_HISTORY ∧
      (add_all g inputs).entries = lastN MAX_HISTORY (g.entries ++ inputs.map cstr) ∧
      (add_all g inputs).wf ∧
      (add_all g inputs).history_index = g.history_index := by
  induction inputs with
  | nil =>
    intro g hwf hc _
    have hl := length_entries g hwf hc
    refine ⟨by simpa [add_all] using hc, ?_, hwf, rfl⟩
    simp only [add_all, List.foldl_nil, List.map_nil, List.append_nil]
    rw [lastN_of_length_le _ _ (by omega)]
  | cons b rest ih =>
    intro g hwf hc hin
    obtain ⟨h1, h2, h3, h4⟩ :=
      add_history_step g b hwf hc (hin b (List.mem_cons_self _ _))
    have hc1 : (add_history g b).history_count ≤ MAX_HISTORY := by
      rw [h1]
      exact Nat.min_le_right _ _
    obtain ⟨k1, k2, k3, k4⟩ :=
      ih (add_history g b) h3 hc1 (fun x hx => hin x (List.mem_cons_of_mem _ hx))
    refine ⟨?_, ?_, k3, ?_⟩
    · show (add_all (add_history g b) rest).history_count = _
      rw [k1, h1]
      simp only [List.length_cons]
      omega
    · show (add_all (add_history g b) rest).entries = _
      rw [k2, h2, lastN_lastN_append]
      simp
    · show (add_all (add_history g b) rest).history_index = _
      rw [k4, h4]

/-! ## Claims -/

/-- C1. The history store is a FIFO of capacity 5: starting from an empty store
(`history_count = 0`), after `add_history` has been called on `n` lines of at most 79 bytes
each, `history_count = min n 5` and rows `0 .. history_count - 1` hold exactly the last
`min n 5` lines, oldest first; no row is written beyond its 80 bytes; after the 6th append
the store holds lines 2 to 6, the first line being gone. -/
theorem add_history_fifo (g : Globals) (inputs : List Buf) (hwf : g.wf)
    (hempty : g.history_count = 0) (hin : ∀ b ∈ inputs, strlen b ≤ 79) :
    (add_all g inputs).history_count = min inputs.length 5 ∧
    (add_all g inputs).entries = lastN 5 (inputs.map cstr) ∧
    (add_all g inputs).wf ∧
    (inputs.length = 6 → (add_all g inputs).entries = (inputs.map cstr).drop 1) := by
  have hent : g.entries = [] := by simp [Globals.entries, hempty]
  obtain ⟨h1, h2, h3, -⟩ := add_all_invariant inputs g hwf (by simp [hempty])
    (fun b hb => by have := hin b hb; simp only [MAX_LINE]; omega)
  rw [hempty, Nat.zero_add] at h1
  rw [hent, List.nil_append] at h2
  refine ⟨h1, h2, h3, fun h6 => ?_⟩
  rw [h2]
  simp [lastN, MAX_HISTORY, h6]

theorem add_history_fifo_witness :
    (add_all empty_store six_lines).history_count = 5 ∧
    (add_all empty_store six_lines).entries = [[98], [99], [100], [101], [102]] :=
  have h := add_history_fifo empty_store six_lines (by unfold Globals.wf; decide)
    (by decide) (by decide)
  ⟨h.1, h.2.1⟩

/-- C4. `input_prev`: on the input `!!` with an empty history it returns 1, prints the
message of the empty history and leaves input and history unchanged; on `!!` with a
non-empty history it returns 0 and the input becomes the string of `history[count - 1]`,
the history being unchanged; on every other input it returns 0 and changes nothing. -/
theorem input_prev_spec (g : Globals) (input : Buf) :
    (cstr input = bytes "!!" → g.history_count = 0 →
      input_prev g input = (1, input, g, bytes "No commands in history.\n")) ∧
    (cstr input = bytes "!!" → 0 < g.history_count →
      (input_prev g input).1 = 0 ∧
      cstr (input_prev g input).2.1 = cstr (g.row (g.history_count - 1)) ∧
      (input_prev g input).2.2.1 = g) ∧
    (cstr input ≠ bytes "!!" → input_prev g input = (0, input, g, [])) := by
  refine ⟨fun h1 h2 => ?_, fun h1 h2 => ?_, fun h1 => ?_⟩
  · simp [input_prev, h1, h2]
  · have h3 : g.history_count ≠ 0 := by omega
    simp [input_prev, h1, h3, cstr_strcpy]
  · simp [input_prev, h1]

theorem input_prev_spec_witness :
    (input_prev one_entry_store bang_input).1 = 0 ∧
    cstr (input_prev one_entry_store bang_input).2.1 = bytes "ls" ∧
    (input_prev one_entry_store bang_input).2.2.1 = one_entry_store ∧
    input_prev empty_store bang_input =
      (1, bang_input, empty_store, bytes "No commands in history.\n") ∧
    input_prev one_entry_store (bytes "ls" ++ [0]) =
      (0, bytes "ls" ++ [0], one_entry_store, []) :=
  have h := (input_prev_spec one_entry_store bang_input).2.1 (by decide) (by decide)
  ⟨h.1, h.2.1, h.2.2,
    (input_prev_spec empty_store bang_input).1 (by decide) (by decide),
    (input_prev_spec one_entry_store (bytes "ls" ++ [0])).2.2 (by decide)⟩

/-! ## Lemmas on the line editor -/

theorem cstr_memset0 (chars : Buf) (n : Nat) (h : 0 < n) : cstr (memset0 chars n) = [] := by
  cases n with
  | zero => omega
  | succ n => simp [memset0, List.replicate_succ, cstr]

theorem loop_up (prompt : Str) (rest : List Nat) (e : Edit) (h : e.index < 79) :
    noncanon_loop prompt (27 :: 91 :: 65 :: rest) e = noncanon_loop prompt rest (key_up prompt e) := by
  simp [noncanon_loop, MAX_LINE, h, key_escape, cstr]

theorem loop_down (prompt : Str) (rest : List Nat) (e : Edit) (h : e.index < 79) :
    noncanon_loop prompt (27 :: 91 :: 66 :: rest) e = noncanon_loop prompt rest (key_down prompt e) := by
  simp [noncanon_loop, MAX_LINE, h, key_escape, cstr]

theorem key_up_showing (prompt : Str) (g : Globals) (j : Nat) (e : Edit)
    (hg : e.g = { g with history_index := j + 1 }) (hj : j + 1 ≤ g.history_count) :
    Showing g j (key_up prompt e) := by
  have h1 : 0 < g.history_count := by omega
  simp [key_up, get_history, Showing, hg, Globals.row, strlen, cstr_strcpy, h1]

theorem ups_run (prompt : Str) (g : Globals)
    (hlen : ∀ i, i < g.history_count → strlen (g.row i) < 79) :
    ∀ (k j : Nat) (e : Edit), e.index < 79 → e.g = { g with history_index := j + (k + 1) } →
      j + (k + 1) ≤ g.history_count →
      ∃ e2, Showing g j e2 ∧
        ∀ rest, noncanon_loop prompt (arrows 65 (k + 1) ++ rest) e = noncanon_loop prompt rest e2 := by
  intro k
  induction k with
  | zero =>
    intro j e hi hg hj
    exact ⟨key_up prompt e, key_up_showing prompt g j e hg hj,
      fun rest => loop_up prompt rest e hi⟩
  | succ k ih =>
    intro j e hi hg hj
    have hs := key_up_showing prompt g (j + (k + 1)) e hg hj
    obtain ⟨e2, h2, h3⟩ := ih j (key_up prompt e)
      (by rw [hs.2.2]; exact hlen _ (by omega)) hs.1 (by omega)
    refine ⟨e2, h2, fun rest => ?_⟩
    rw [← h3 rest]
    exact loop_up prompt _ e hi

theorem key_down_showing (prompt : Str) (g : Globals) (j : Nat) (e : Edit)
    (hg : e.g = { g with history_index := j }) (hj : j + 1 < g.history_count) :
    Showing g (j + 1) (key_down prompt e) := by
  have h1 : 0 < g.history_count := by omega
  simp [key_down, get_history, Showing, hg, Globals.row, strlen, cstr_strcpy, h1, hj]

theorem key_down_newest (prompt : Str) (g : Globals) (j : Nat) (e : Edit)
    (hg : e.g = { g with history_index := j }) (hj : j + 1 = g.history_count) :
    (key_down prompt e).g = { g with history_index := g.history_count } ∧
    (key_down prompt e).chars = memset0 e.chars MAX_LINE ∧
    (key_down prompt e).index = 0 := by
  simp [key_down, hg, hj]

theorem downs_run (prompt : Str) (g : Globals)
    (hlen : ∀ i, i < g.history_count → strlen (g.row i) < 79) :
    ∀ (k j : Nat) (e : Edit), Showing g j e → j + k + 1 = g.history_count →
      ∃ e2, e2.g = { g with history_index := g.history_count } ∧
        cstr e2.chars = [] ∧ e2.index = 0 ∧
        ∀ rest, noncanon_loop prompt (arrows 66 (k + 1) ++ rest) e = noncanon_loop prompt rest e2 := by
  intro k
  induction k with
  | zero =>
    intro j e hs hj
    have hi : e.index < 79 := by rw [hs.2.2]; exact hlen _ (by omega)
    obtain ⟨h1, h2, h3⟩ := key_down_newest prompt g j e hs.1 hj
    refine ⟨key_down prompt e, h1, ?_, h3, fun rest => loop_down prompt rest e hi⟩
    rw [h2]
    exact cstr_memset0 _ _ (by decide)
  | succ k ih =>
    intro j e hs hj
    have hi : e.index < 79 := by rw [hs.2.2]; exact hlen _ (by omega)
    have hs2 := key_down_showing prompt g j e hs.1 (by omega)
    obtain ⟨e2, h1, h2, h3, h4⟩ := ih (j + 1) (key_down prompt e) hs2 (by omega)
    refine ⟨e2, h1, h2, h3, fun rest => ?_⟩
    rw [← h4 rest]
    exact loop_down prompt _ e hi

theorem cstr_set_zero (l : Buf) : cstr (l.set 0 0) = [] := by
  cases l <;> simp [cstr]

theorem downs_showing (prompt : Str) (g : Globals)
    (hlen : ∀ i, i < g.history_count → strlen (g.row i) < 79) :
    ∀ (k j : Nat) (e : Edit), Showing g j e → j + k < g.history_count →
      ∃ e2, Showing g (j + k) e2 ∧
        ∀ rest, noncanon_loop prompt (arrows 66 k ++ rest) e = noncanon_loop prompt rest e2 := by
  intro k
  induction k with
  | zero =>
    intro j e hs _
    exact ⟨e, hs, fun rest => rfl⟩
  | succ k ih =>
    intro j e hs hj
    have hi : e.index < 79 := by rw [hs.2.2]; exact hlen _ (by omega)
    have hs2 := key_down_showing prompt g j e hs.1 (by omega)
    obtain ⟨e2, h1, h2⟩ := ih (j + 1) (key_down prompt e) hs2 (by omega)
    refine ⟨e2, ?_, fun rest => ?_⟩
    · have : j + (k + 1) = j + 1 + k := by omega
      rw [this]
      exact h1
    · rw [← h2 rest]
      exact loop_down prompt _ e hi

theorem cstr_set_strlen (l : Buf) : cstr (l.set (cstr l).length 0) = cstr l := by
  induction l with
  | nil => rfl
  | cons c l ih =>
    by_cases hc : c = 0
    · simp [cstr, hc]
    · simp [cstr, hc, ih]

/-- C5. History recall: with `count >= 1` entries, each shorter than 79 bytes, and
`1 <= N <= count`, `N` up-arrows from a fresh prompt leave in the buffer the string of
`history[count - N]`, `index` equal to its length and the history cursor at `count - N`;
`k < N` down-arrows after that leave in the buffer the string of `history[count - N + k]`
with `index` its length and the cursor at `count - N + k`, so that `N - 1` down-arrows
return to the newest entry `history[count - 1]`, and a newline then returns that entry;
`N` down-arrows leave the buffer empty, `index = 0` and the cursor at `count`, and a
following newline makes `noncanon_input` return the empty line. -/
theorem history_recall (prompt : Str) (g : Globals) (chars : Buf) (N : Nat)
    (hN1 : 1 ≤ N) (hN : N ≤ g.history_count)
    (hlen : ∀ i, i < g.history_count → strlen (g.row i) < 79) :
    (∃ e1, (∀ rest, noncanon_loop prompt (arrows 65 N ++ rest) (edit_init g chars) =
          noncanon_loop prompt rest e1) ∧
        cstr e1.chars = cstr (g.row (g.history_count - N)) ∧
        e1.index = strlen (g.row (g.history_count - N)) ∧
        e1.g.history_index = g.history_count - N ∧
        e1.g.history = g.history ∧ e1.g.history_count = g.history_count) ∧
    (∃ e2, (∀ rest, noncanon_loop prompt (arrows 65 N ++ (arrows 66 N ++ rest))
            (edit_init g chars) = noncanon_loop prompt rest e2) ∧
        cstr e2.chars = [] ∧ e2.index = 0 ∧ e2.g.history_index = g.history_count ∧
        e2.g.history = g.history ∧ e2.g.history_count = g.history_count) ∧
    (∀ rest, ∃ e3, noncanon_input prompt g chars (arrows 65 N ++ (arrows 66 N ++ 10 :: rest)) =
        some (e3, rest) ∧ cstr e3.chars = []) ∧
    (∀ k, k < N →
      ∃ e4, (∀ rest, noncanon_loop prompt (arrows 65 N ++ (arrows 66 k ++ rest))
            (edit_init g chars) = noncanon_loop prompt rest e4) ∧
        cstr e4.chars = cstr (g.row (g.history_count - N + k)) ∧
        e4.index = strlen (g.row (g.history_count - N + k)) ∧
        e4.g.history_index = g.history_count - N + k ∧
        e4.g.history = g.history ∧ e4.g.history_count = g.history_count) ∧
    (∀ k, k < N → ∀ rest,
      ∃ e5, noncanon_input prompt g chars (arrows 65 N ++ (arrows 66 k ++ 10 :: rest)) =
          some (e5, rest) ∧
        cstr e5.chars = cstr (g.row (g.history_count - N + k))) := by
  have hmid : ∀ k, k < N → ∃ e4, Showing g (g.history_count - N + k) e4 ∧
      ∀ rest, noncanon_loop prompt (arrows 65 N ++ (arrows 66 k ++ rest))
        (edit_init g chars) = noncanon_loop prompt rest e4 := by
    intro k hk
    obtain ⟨n, rfl⟩ : ∃ n, N = n + 1 := ⟨N - 1, by omega⟩
    obtain ⟨e1, hs, hrun⟩ := ups_run prompt g hlen n (g.history_count - (n + 1))
      (edit_init g chars) (by simp [edit_init])
      (by simp only [edit_init]; congr 1; omega) (by omega)
    obtain ⟨e4, hs4, hrun4⟩ := downs_showing prompt g hlen k
      (g.history_count - (n + 1)) e1 hs (by omega)
    exact ⟨e4, hs4, fun rest => by rw [hrun, hrun4]⟩
  obtain ⟨k, rfl⟩ : ∃ k, N = k + 1 := ⟨N - 1, by omega⟩
  obtain ⟨e1, hs, hrun⟩ := ups_run prompt g hlen k (g.history_count - (k + 1))
    (edit_init g chars) (by simp [edit_init])
    (by simp only [edit_init]; congr 1; omega) (by omega)
  obtain ⟨e2, hg2, hc2, hi2, hrun2⟩ := downs_run prompt g hlen k
    (g.history_count - (k + 1)) e1 hs (by omega)
  have hboth : ∀ rest, noncanon_loop prompt (arrows 65 (k + 1) ++ (arrows 66 (k + 1) ++ rest))
      (edit_init g chars) = noncanon_loop prompt rest e2 := by
    intro rest
    rw [hrun, hrun2]
  refine ⟨⟨e1, hrun, hs.2.1, hs.2.2, ?_, ?_, ?_⟩, ⟨e2, hboth, hc2, hi2, ?_, ?_, ?_⟩,
    fun rest => ⟨edit_finish e2, ?_, ?_⟩, fun m hm => ?_, fun m hm rest => ?_⟩
  · rw [hs.1]
  · rw [hs.1]
  · rw [hs.1]
  · rw [hg2]
  · rw [hg2]
  · rw [hg2]
  · unfold noncanon_input
    rw [hboth]
    have h10 : noncanon_loop prompt (10 :: rest) e2 = some (e2, rest) := by
      unfold noncanon_loop
      simp [hi2, MAX_LINE]
    rw [h10]
    rfl
  · simp [edit_finish, hi2, cstr_set_zero]
  · obtain ⟨e4, hs4, hrun4⟩ := hmid m hm
    refine ⟨e4, hrun4, hs4.2.1, hs4.2.2, ?_, ?_, ?_⟩
    · rw [hs4.1]
    · rw [hs4.1]
    · rw [hs4.1]
  · obtain ⟨e4, hs4, hrun4⟩ := hmid m hm
    have hi4 : e4.index < 79 := by rw [hs4.2.2]; exact hlen _ (by omega)
    refine ⟨edit_finish e4, ?_, ?_⟩
    · unfold noncanon_input
      rw [hrun4]
      have h10 : noncanon_loop prompt (10 :: rest) e4 = some (e4, rest) := by
        unfold noncanon_loop
        simp [hi4, MAX_LINE]
      rw [h10]
      rfl
    · have hidx : e4.index = (cstr e4.chars).length := by
        rw [hs4.2.2, hs4.2.1]
        rfl
      simp only [edit_finish]
      rw [hidx, cstr_set_strlen, hs4.2.1]

theorem history_recall_witness :
    (∃ e3, noncanon_input (bytes "osh:~> ") three_entry_store (List.replicate 80 0)
        (arrows 65 2 ++ (arrows 66 2 ++ [10, 108, 115])) = some (e3, [108, 115]) ∧
      cstr e3.chars = []) ∧
    (∃ e5, noncanon_input (bytes "osh:~> ") three_entry_store (List.replicate 80 0)
        (arrows 65 3 ++ (arrows 66 1 ++ [10])) = some (e5, []) ∧
      cstr e5.chars = bytes "pwd") ∧
    (∃ e5, noncanon_input (bytes "osh:~> ") three_entry_store (List.replicate 80 0)
        (arrows 65 3 ++ (arrows 66 2 ++ [10])) = some (e5, []) ∧
      cstr e5.chars = bytes "date") ∧
    (∃ e3, noncanon_input (bytes "osh:~> ") three_entry_store (List.replicate 80 0)
        (arrows 65 3 ++ (arrows 66 3 ++ [10])) = some (e3, []) ∧
      cstr e3.chars = []) :=
  ⟨(history_recall (bytes "osh:~> ") three_entry_store (List.replicate 80 0) 2
      (by decide) (by decide) (by decide)).2.2.1 [108, 115],
    (history_recall (bytes "osh:~> ") three_entry_store (List.replicate 80 0) 3
      (by decide) (by decide) (by decide)).2.2.2.2 1 (by decide) [],
    (history_recall (bytes "osh:~> ") three_entry_store (List.replicate 80 0) 3
      (by decide) (by decide) (by decide)).2.2.2.2 2 (by decide) [],
    (history_recall (bytes "osh:~> ") three_entry_store (List.replicate 80 0) 3
      (by decide) (by decide) (by decide)).2.2.1 []⟩
/-! ## Lemmas on `strtok` and the parser loop -/

theorem length_skip_spaces (s : Str) : (skip_spaces s).length ≤ s.length := by
  induction s with
  | nil => simp [skip_spaces]
  | cons c rest ih =>
    by_cases hc : c = 32
    · simp only [skip_spaces, hc, if_true, List.length_cons]
      omega
    · simp [skip_spaces, hc]

theorem skip_spaces_head (s : Str) (c : Nat) (rest : Str) (h : skip_spaces s = c :: rest) :
    c ≠ 32 := by
  induction s with
  | nil => simp [skip_spaces] at h
  | cons d s ih =>
    by_cases hd : d = 32
    · simp only [skip_spaces, hd, if_true] at h
      exact ih h
    · simp only [skip_spaces, hd, if_false, List.cons.injEq] at h
      rw [← h.1]
      exact hd

theorem length_take_token (s : Str) : (take_token s).2.length ≤ s.length := by
  induction s with
  | nil => simp [take_token]
  | cons c rest ih =>
    by_cases hc : c = 32
    · simp [take_token, hc]
    · simp only [take_token, hc, if_false, List.length_cons]
      omega

theorem strtok_none (s : Str) (h : (strtok s).1 = none) : (strtok s).2 = [] := by
  unfold strtok at h ⊢
  split
  · rfl
  · rename_i c rest heq
    rw [heq] at h
    simp at h

theorem strtok_nil : strtok [] = (none, []) := by
  simp [strtok, skip_spaces]

theorem length_strtok (s : Str) (t : Str) (h : (strtok s).1 = some t) :
    (strtok s).2.length < s.length := by
  unfold strtok at h ⊢
  have h1 := length_skip_spaces s
  split
  · rename_i heq
    rw [heq] at h
    simp at h
  · rename_i c rest heq
    have hne : c ≠ 32 := skip_spaces_head s c rest heq
    have h2 := length_take_token rest
    rw [heq] at h1
    simp only [take_token, hne, if_false]
    simp only [List.length_cons] at h1
    omega

theorem length_strtok_le (s : Str) : (strtok s).2.length ≤ s.length := by
  cases h : (strtok s).1 with
  | none => simp [strtok_none s h]
  | some t => exact Nat.le_of_lt (length_strtok s t h)

theorem tokens_fuel_stable : ∀ (n : Nat) (s : Str), s.length ≤ n →
    tokens_fuel n s = tokens s := by
  intro n
  induction n using Nat.strong_induction_on with
  | _ n ih =>
    intro s hs
    unfold tokens
    cases n with
    | zero =>
      have : s = [] := List.length_eq_zero.mp (by omega)
      subst this
      rfl
    | succ n =>
      cases hl : s.length with
      | zero =>
        have : s = [] := List.length_eq_zero.mp hl
        subst this
        simp [tokens_fuel, strtok_nil]
      | succ m =>
        simp only [tokens_fuel]
        cases h1 : (strtok s).1 with
        | none =>
          have : strtok s = (none, (strtok s).2) := by rw [← h1]
          rw [this]
        | some t =>
          have hlt := length_strtok s t h1
          have : strtok s = (some t, (strtok s).2) := by rw [← h1]
          rw [this]
          simp only
          rw [ih n (by omega) _ (by omega), ih m (by omega) _ (by omega)]

theorem tokens_eq (s : Str) :
    tokens s = match strtok s with
      | (none, _) => []
      | (some t, rest) => t :: tokens rest := by
  rw [← tokens_fuel_stable (s.length + 1) s (by omega)]
  simp only [tokens_fuel]
  cases h1 : (strtok s).1 with
  | none =>
    have : strtok s = (none, (strtok s).2) := by rw [← h1]
    rw [this]
  | some t =>
    have hlt := length_strtok s t h1
    have : strtok s = (some t, (strtok s).2) := by rw [← h1]
    rw [this]
    simp only
    rw [tokens_fuel_stable _ _ (by omega)]

theorem tokens_of_none (s : Str) (h : (strtok s).1 = none) : tokens s = [] := by
  rw [tokens_eq]
  have : strtok s = (none, (strtok s).2) := by rw [← h]
  rw [this]

theorem tokens_of_some (s : Str) (t : Str) (h : (strtok s).1 = some t) :
    tokens s = t :: tokens (strtok s).2 := by
  conv_lhs => rw [tokens_eq]
  have : strtok s = (some t, (strtok s).2) := by rw [← h]
  rw [this]

theorem parse_tokens_amp (ts : List Str) (p : Parsed) :
    parse_tokens (bytes "&" :: ts) p = parse_tokens ts { p with bkgd := 1 } := by
  rw [parse_tokens.eq_def]
  simp

theorem parse_tokens_in (f : Str) (ts : List Str) (p : Parsed) :
    parse_tokens (bytes "<" :: f :: ts) p = parse_tokens ts { p with inpRedirFile := some f } := by
  rw [parse_tokens]
  simp [bytes]

theorem parse_tokens_in_last (p : Parsed) :
    parse_tokens [bytes "<"] p = { p with inpRedirFile := none } := by
  rw [parse_tokens]
  simp [bytes]

theorem parse_tokens_out (f : Str) (ts : List Str) (p : Parsed) :
    parse_tokens (bytes ">" :: f :: ts) p = parse_tokens ts { p with outpRedirFile := some f } := by
  rw [parse_tokens]
  simp [bytes]

theorem parse_tokens_out_last (p : Parsed) :
    parse_tokens [bytes ">"] p = { p with outpRedirFile := none } := by
  rw [parse_tokens]
  simp [bytes]

theorem parse_tokens_pipe (ts : List Str) (p : Parsed) :
    parse_tokens (bytes "|" :: ts) p = parse_tokens ts
      { p with
        pipe_index := p.token_index
        args := p.args.set p.token_index none
        token_index := p.token_index + 1 } := by
  rw [parse_tokens.eq_def]
  simp [bytes]

theorem parse_tokens_word (t : Str) (ts : List Str) (p : Parsed) (h : ordinary t) :
    parse_tokens (t :: ts) p = parse_tokens ts
      { p with
        args := p.args.set p.token_index (some t)
        token_index := p.token_index + 1 } := by
  obtain ⟨h1, h2, h3, h4⟩ := h
  rw [parse_tokens.eq_def]
  simp [h1, h2, h3, h4]

theorem input_parse_loop_eq : ∀ (fuel : Nat) (s : Str) (p : Parsed), s.length < fuel →
    input_parse_loop fuel (strtok s).1 (strtok s).2 p = some (parse_tokens (tokens s) p) := by
  intro fuel
  induction fuel with
  | zero => intro s p h; omega
  | succ fuel ih =>
    intro s p hs
    cases h1 : (strtok s).1 with
    | none =>
      rw [tokens_of_none s h1]
      rfl
    | some t =>
      have hlt := length_strtok s t h1
      rw [tokens_of_some s t h1]
      have hrest := ih (strtok s).2
      have hle := length_strtok_le (strtok s).2
      have hfuel : ∀ q : Parsed, input_parse_loop fuel none [] q = some q := by
        intro q
        cases fuel with
        | zero => omega
        | succ fuel => rfl
      simp only [input_parse_loop]
      split_ifs with ha hb hc hd
      · rw [ha, parse_tokens_amp]
        exact hrest _ (by omega)
      · cases h2 : (strtok (strtok s).2).1 with
        | none =>
          rw [tokens_of_none _ h2, strtok_none _ h2, strtok_nil, hb, parse_tokens_in_last]
          exact hfuel _
        | some f =>
          rw [tokens_of_some _ f h2, hb, parse_tokens_in]
          exact ih _ _ (by omega)
      · cases h2 : (strtok (strtok s).2).1 with
        | none =>
          rw [tokens_of_none _ h2, strtok_none _ h2, strtok_nil, hc, parse_tokens_out_last]
          exact hfuel _
        | some f =>
          rw [tokens_of_some _ f h2, hc, parse_tokens_out]
          exact ih _ _ (by omega)
      · rw [hd, parse_tokens_pipe]
        exact hrest _ (by omega)
      · rw [parse_tokens_word t _ p ⟨ha, hb, hc, hd⟩]
        exact hrest _ (by omega)

theorem input_parse_eq (input : Buf) (p : Parsed) :
    input_parse input p = some (parse_line (cstr input) p) := by
  unfold input_parse parse_line
  rw [input_parse_loop_eq _ _ _ (by unfold strlen; omega)]
  rfl
/-! ## Tokens of a line written with single spaces -/

theorem take_token_append (t r : Str) (h : 32 ∉ t) : take_token (t ++ 32 :: r) = (t, r) := by
  induction t with
  | nil => simp [take_token]
  | cons c t ih =>
    have hc : c ≠ 32 := fun hc => h (by simp [hc])
    have ht : 32 ∉ t := fun ht => h (List.mem_cons_of_mem _ ht)
    simp [take_token, hc, ih ht]

theorem take_token_all (t : Str) (h : 32 ∉ t) : take_token t = (t, []) := by
  induction t with
  | nil => simp [take_token]
  | cons c t ih =>
    have hc : c ≠ 32 := fun hc => h (by simp [hc])
    have ht : 32 ∉ t := fun ht => h (List.mem_cons_of_mem _ ht)
    simp [take_token, hc, ih ht]

theorem skip_spaces_token (t r : Str) (h : is_token t) : skip_spaces (t ++ r) = t ++ r := by
  obtain ⟨hne, hsp⟩ := h
  cases t with
  | nil => exact absurd rfl hne
  | cons c t =>
    have hc : c ≠ 32 := fun hc => hsp (by simp [hc])
    simp [skip_spaces, hc]

theorem strtok_token_space (t r : Str) (h : is_token t) :
    strtok (t ++ 32 :: r) = (some t, r) := by
  have h1 := skip_spaces_token t (32 :: r) h
  obtain ⟨hne, hsp⟩ := h
  cases t with
  | nil => exact absurd rfl hne
  | cons c t =>
    unfold strtok
    rw [h1]
    simp only [List.cons_append]
    rw [← List.cons_append, take_token_append _ _ hsp]

theorem strtok_token (t : Str) (h : is_token t) : strtok t = (some t, []) := by
  have h1 := skip_spaces_token t [] h
  obtain ⟨hne, hsp⟩ := h
  cases t with
  | nil => exact absurd rfl hne
  | cons c t =>
    unfold strtok
    rw [List.append_nil] at h1
    rw [h1]
    simp only
    rw [take_token_all _ hsp]

theorem tokens_join_sp (ts : List Str) (h : ∀ t ∈ ts, is_token t) :
    tokens (join_sp ts) = ts := by
  induction ts with
  | nil => rfl
  | cons t ts ih =>
    have ht := h t (List.mem_cons_self _ _)
    have hts : ∀ u ∈ ts, is_token u := fun u hu => h u (List.mem_cons_of_mem _ hu)
    cases ts with
    | nil =>
      rw [tokens_of_some (join_sp [t]) t (by simp [join_sp, strtok_token t ht])]
      simp [join_sp, strtok_token t ht, tokens_of_none, strtok_nil]
    | cons u ts =>
      rw [tokens_of_some (join_sp (t :: u :: ts)) t
        (by simp [join_sp, strtok_token_space t _ ht])]
      simp only [join_sp, strtok_token_space t _ ht]
      rw [ih hts]

theorem length_join_sp (ts : List Str) (h : ∀ t ∈ ts, is_token t) :
    2 * ts.length ≤ (join_sp ts).length + 1 := by
  induction ts with
  | nil => simp
  | cons t ts ih =>
    have ht := (h t (List.mem_cons_self _ _)).1
    have hts : ∀ u ∈ ts, is_token u := fun u hu => h u (List.mem_cons_of_mem _ hu)
    have hpos : 0 < t.length := List.length_pos.mpr ht
    cases ts with
    | nil => simp [join_sp]; omega
    | cons u ts =>
      have := ih hts
      simp only [join_sp, List.length_append, List.length_cons] at this ⊢
      omega
/-! ## The parser on ordinary tokens, and the pipeline form -/

theorem set_append_length {α : Type} (pre : List α) (x a : α) (suf : List α) :
    (pre ++ x :: suf).set pre.length a = pre ++ a :: suf := by
  induction pre with
  | nil => rfl
  | cons y pre ih => simp [ih]

theorem parse_tokens_words (ts : List Str) : ∀ (ws : List Str) (pre suf : List (Option Str))
    (p : Parsed), (∀ t ∈ ws, ordinary t) → p.args = pre ++ suf → p.token_index = pre.length →
    ws.length ≤ suf.length →
    parse_tokens (ws ++ ts) p = parse_tokens ts
      { p with
        args := pre ++ (ws.map some ++ suf.drop ws.length)
        token_index := pre.length + ws.length } := by
  intro ws
  induction ws with
  | nil =>
    intro pre suf p _ ha hi _
    simp [← ha, ← hi]
  | cons w ws ih =>
    intro pre suf p hw ha hi hl
    cases suf with
    | nil => simp at hl
    | cons x suf =>
      rw [List.cons_append, parse_tokens_word w _ p (hw w (List.mem_cons_self _ _))]
      rw [ih (pre ++ [some w]) suf _ (fun t ht => hw t (List.mem_cons_of_mem _ ht))
        (by simp [ha, hi, set_append_length]) (by simp [hi])
        (by simpa using hl)]
      simp [Nat.add_assoc, Nat.add_comm 1]

theorem argv_at_somes (us : List Str) (rest : List (Option Str)) :
    argv_at (us.map some ++ none :: rest) 0 = us := by
  induction us with
  | nil => simp [argv_at]
  | cons u us ih => simp [argv_at, ih]

theorem argv_at_skip (pre l : List (Option Str)) :
    argv_at (pre ++ l) pre.length = argv_at l 0 := by
  induction pre with
  | nil => rfl
  | cons x pre ih =>
    cases x <;> simp [argv_at, ih]

/-- C2. Parsing a two-stage pipeline: for a line `u1 .. um | v1 .. vn` (single
spaces, no `ui`, `vj` among `&`, `<`, `>`, `|`) held in the 80-byte input array,
`input_parse` returns with `args` holding `u1 .. um`, a sentinel, `v1 .. vn`, a sentinel, so
that the argv read at index 0 is `[u1 .. um]` and the argv read at `pipe_index + 1` is
`[v1 .. vn]`; `pipe_index = m`, both redirection files are absent and `bkgd = 0`. -/
theorem parse_pipeline (us vs : List Str) (input : Buf) (args : List (Option Str))
    (htok : ∀ t ∈ us ++ vs, is_token t ∧ ordinary t)
    (hline : cstr input = join_sp (us ++ bytes "|" :: vs))
    (hlen : strlen input + 1 ≤ MAX_LINE) (hargs : args.length = MAX_LINE) :
    ∃ r, input_parse input (parse_init args) = some r ∧
      r.args = us.map some ++ none :: (vs.map some ++ none ::
        args.drop (us.length + vs.length + 2)) ∧
      argv_at r.args 0 = us ∧
      r.pipe_index = us.length ∧
      argv_at r.args (us.length + 1) = vs ∧
      r.token_index = us.length + 1 + vs.length ∧
      r.inpRedirFile = none ∧ r.outpRedirFile = none ∧ r.bkgd = 0 := by
  have hpipe : is_token (bytes "|") := by unfold is_token; decide
  have hall : ∀ t ∈ us ++ bytes "|" :: vs, is_token t := by
    intro t ht
    rcases List.mem_append.mp ht with h | h
    · exact (htok t (List.mem_append_left _ h)).1
    · rcases List.mem_cons.mp h with h | h
      · rw [h]; exact hpipe
      · exact (htok t (List.mem_append_right _ h)).1
  have hcount := length_join_sp _ hall
  rw [← hline] at hcount
  unfold strlen at hlen
  simp only [MAX_LINE, List.length_append, List.length_cons] at hcount hlen hargs
  have hr : parse_line (cstr input) (parse_init args) =
      { args := us.map some ++ none :: (vs.map some ++ none ::
          args.drop (us.length + vs.length + 2))
        bkgd := 0, inpRedirFile := none, outpRedirFile := none
        pipe_index := us.length, token_index := us.length + 1 + vs.length } := by
    unfold parse_line
    rw [hline, tokens_join_sp _ hall]
    rw [parse_tokens_words _ us [] args _
      (fun t ht => (htok t (List.mem_append_left _ ht)).2) rfl rfl (by omega)]
    rw [parse_tokens_pipe]
    obtain ⟨x, hx⟩ : ∃ x, args.drop us.length = x :: args.drop (us.length + 1) :=
      ⟨args[us.length], List.drop_eq_getElem_cons (by omega)⟩
    obtain ⟨y, hy⟩ : ∃ y, args.drop (us.length + 1 + vs.length) =
        y :: args.drop (us.length + 1 + vs.length + 1) :=
      ⟨args[us.length + 1 + vs.length], List.drop_eq_getElem_cons (by omega)⟩
    have hset := set_append_length (us.map some) x none (args.drop (us.length + 1))
    rw [List.length_map] at hset
    simp only [parse_init, List.nil_append, List.length_nil, Nat.zero_add, hx, hset]
    have hvs2 : vs = vs ++ [] := (List.append_nil vs).symm
    conv_lhs => rw [hvs2]
    rw [parse_tokens_words [] vs (us.map some ++ [none]) (args.drop (us.length + 1)) _
      (fun t ht => (htok t (List.mem_append_right _ ht)).2) (by simp) (by simp)
      (by simp; omega)]
    simp only [parse_tokens, List.drop_drop, List.length_append, List.length_map,
      List.length_singleton]
    have hset2 := set_append_length (us.map some ++ [none] ++ vs.map some) y none
      (args.drop (us.length + 1 + vs.length + 1))
    simp only [List.length_append, List.length_map, List.length_singleton] at hset2
    rw [hy, ← List.append_assoc, hset2]
    have h2 : us.length + 1 + vs.length + 1 = us.length + vs.length + 2 := by omega
    rw [h2]
    simp
  refine ⟨_, input_parse_eq input (parse_init args), ?_⟩
  rw [hr]
  refine ⟨rfl, argv_at_somes _ _, rfl, ?_, rfl, rfl, rfl, rfl⟩
  have hskip := argv_at_skip (us.map some ++ [none])
    (vs.map some ++ none :: args.drop (us.length + vs.length + 2))
  simp only [List.length_append, List.length_map, List.length_singleton,
    List.append_assoc, List.singleton_append] at hskip
  show argv_at (us.map some ++ none :: (vs.map some ++ none ::
    args.drop (us.length + vs.length + 2))) (us.length + 1) = vs
  rw [hskip, argv_at_somes]

theorem parse_pipeline_witness :
    ∃ r, input_parse (line_buf "ls -l | grep foo") (parse_init args_blank) = some r ∧
      argv_at r.args 0 = [bytes "ls", bytes "-l"] ∧
      r.pipe_index = 2 ∧
      argv_at r.args 3 = [bytes "grep", bytes "foo"] ∧
      r.inpRedirFile = none ∧ r.outpRedirFile = none ∧ r.bkgd = 0 := by
  obtain ⟨r, h1, -, h3, h4, h5, -, h7, h8, h9⟩ :=
    parse_pipeline [bytes "ls", bytes "-l"] [bytes "grep", bytes "foo"]
      (line_buf "ls -l | grep foo") args_blank (by decide) (by decide) (by decide) (by decide)
  exact ⟨r, h1, h3, h4, h5, h7, h8, h9⟩
/-! ## The parser on lines with redirections and `&` -/

theorem parse_tokens_items : ∀ (items : List Item) (pre suf : List (Option Str)) (p : Parsed),
    (∀ it ∈ items, it.valid) → p.args = pre ++ suf → p.token_index = pre.length →
    (item_words items).length ≤ suf.length →
    parse_tokens (item_tokens items) p =
      { args := pre ++ ((item_words items).map some ++ suf.drop (item_words items).length)
        bkgd := item_bkgd items p.bkgd
        inpRedirFile := item_in items p.inpRedirFile
        outpRedirFile := item_out items p.outpRedirFile
        pipe_index := p.pipe_index
        token_index := pre.length + (item_words items).length } := by
  intro items
  induction items with
  | nil =>
    intro pre suf p _ ha hi _
    simp [item_tokens, parse_tokens, item_words, item_bkgd, item_in, item_out, ← ha, ← hi]
  | cons it items ih =>
    intro pre suf p hv ha hi hl
    have hv2 : ∀ x ∈ items, x.valid := fun x hx => hv x (List.mem_cons_of_mem _ hx)
    have hit := hv it (List.mem_cons_self _ _)
    cases it with
    | word t =>
      cases suf with
      | nil => simp [item_words] at hl
      | cons x suf =>
        simp only [item_tokens, Item.toks, List.singleton_append]
        rw [parse_tokens_word t _ p hit.2]
        rw [ih (pre ++ [some t]) suf _ hv2 (by simp [ha, hi, set_append_length]) (by simp [hi])
          (by simpa [item_words] using hl)]
        simp [item_words, item_bkgd, item_in, item_out, Nat.add_assoc, Nat.add_comm 1]
    | amp =>
      simp only [item_tokens, Item.toks, List.singleton_append]
      rw [parse_tokens_amp, ih pre suf { p with bkgd := 1 } hv2 ha hi (by simpa [item_words] using hl)]
      simp [item_words, item_bkgd, item_in, item_out]
    | input f =>
      simp only [item_tokens, Item.toks, List.cons_append, List.nil_append]
      rw [parse_tokens_in, ih pre suf { p with inpRedirFile := some f } hv2 ha hi (by simpa [item_words] using hl)]
      simp [item_words, item_bkgd, item_in, item_out]
    | output g =>
      simp only [item_tokens, Item.toks, List.cons_append, List.nil_append]
      rw [parse_tokens_out, ih pre suf { p with outpRedirFile := some g } hv2 ha hi (by simpa [item_words] using hl)]
      simp [item_words, item_bkgd, item_in, item_out]

theorem item_bkgd_of_mem : ∀ (items : List Item) (cur : Nat), Item.amp ∈ items →
    item_bkgd items cur = 1 := by
  intro items
  induction items with
  | nil => intro cur h; simp at h
  | cons it items ih =>
    intro cur h
    by_cases hm : Item.amp ∈ items
    · cases it <;> simp [item_bkgd, ih _ hm]
    · cases it with
      | amp =>
        simp only [item_bkgd]
        clear ih h
        induction items with
        | nil => rfl
        | cons x items ih2 =>
          have hx : x ≠ Item.amp := fun hx => hm (by simp [hx])
          have hm2 : Item.amp ∉ items := fun h2 => hm (List.mem_cons_of_mem _ h2)
          cases x <;> simp_all [item_bkgd]
      | _ => simp_all

theorem item_bkgd_of_not_mem : ∀ (items : List Item) (cur : Nat), Item.amp ∉ items →
    item_bkgd items cur = cur := by
  intro items
  induction items with
  | nil => intro cur _; rfl
  | cons it items ih =>
    intro cur h
    have hm2 : Item.amp ∉ items := fun h2 => h (List.mem_cons_of_mem _ h2)
    cases it with
    | amp => simp at h
    | _ => simp [item_bkgd, ih _ hm2]

theorem item_in_nil : ∀ (items : List Item) (cur : Option Str),
    item_ins items = [] → item_in items cur = cur := by
  intro items
  induction items with
  | nil => intro cur _; rfl
  | cons it items ih =>
    intro cur h
    cases it with
    | input f => simp [item_ins] at h
    | _ => exact ih cur (by simpa [item_ins] using h)

theorem item_in_head : ∀ (items : List Item) (cur : Option Str),
    (item_ins items).length ≤ 1 → item_ins items ≠ [] →
    item_in items cur = (item_ins items).head? := by
  intro items
  induction items with
  | nil => intro cur _ h; exact absurd rfl h
  | cons it items ih =>
    intro cur hl hne
    cases it with
    | input f =>
      have hnil : item_ins items = [] := by
        simp only [item_ins, List.length_cons] at hl
        exact List.length_eq_zero.mp (by omega)
      simp [item_in, item_ins, item_in_nil items _ hnil]
    | _ => exact ih cur (by simpa [item_ins] using hl) (by simpa [item_ins] using hne)

theorem item_in_eq (items : List Item) (h : (item_ins items).length ≤ 1) :
    item_in items none = (item_ins items).head? := by
  by_cases hne : item_ins items = []
  · rw [item_in_nil items none hne, hne]
    rfl
  · exact item_in_head items none h hne

theorem item_out_nil : ∀ (items : List Item) (cur : Option Str),
    item_outs items = [] → item_out items cur = cur := by
  intro items
  induction items with
  | nil => intro cur _; rfl
  | cons it items ih =>
    intro cur h
    cases it with
    | output g => simp [item_outs] at h
    | _ => exact ih cur (by simpa [item_outs] using h)

theorem item_out_head : ∀ (items : List Item) (cur : Option Str),
    (item_outs items).length ≤ 1 → item_outs items ≠ [] →
    item_out items cur = (item_outs items).head? := by
  intro items
  induction items with
  | nil => intro cur _ h; exact absurd rfl h
  | cons it items ih =>
    intro cur hl hne
    cases it with
    | output g =>
      have hnil : item_outs items = [] := by
        simp only [item_outs, List.length_cons] at hl
        exact List.length_eq_zero.mp (by omega)
      simp [item_out, item_outs, item_out_nil items _ hnil]
    | _ => exact ih cur (by simpa [item_outs] using hl) (by simpa [item_outs] using hne)

theorem item_out_eq (items : List Item) (h : (item_outs items).length ≤ 1) :
    item_out items none = (item_outs items).head? := by
  by_cases hne : item_outs items = []
  · rw [item_out_nil items none hne, hne]
    rfl
  · exact item_out_head items none h hne

theorem item_tokens_valid (items : List Item) (hv : ∀ it ∈ items, it.valid) :
    ∀ t ∈ item_tokens items, is_token t := by
  induction items with
  | nil => intro t ht; simp [item_tokens] at ht
  | cons it items ih =>
    intro t ht
    have hit := hv it (List.mem_cons_self _ _)
    simp only [item_tokens, List.mem_append] at ht
    rcases ht with h | h
    · cases it with
      | word w =>
        simp only [Item.toks, List.mem_singleton] at h
        rw [h]; exact hit.1
      | amp =>
        simp only [Item.toks, List.mem_singleton] at h
        rw [h]; unfold is_token; decide
      | input f =>
        simp only [Item.toks, List.mem_cons, List.mem_singleton, List.not_mem_nil,
          or_false] at h
        rcases h with h | h
        · rw [h]; unfold is_token; decide
        · rw [h]; exact hit.1
      | output g =>
        simp only [Item.toks, List.mem_cons, List.mem_singleton, List.not_mem_nil,
          or_false] at h
        rcases h with h | h
        · rw [h]; unfold is_token; decide
        · rw [h]; exact hit.1
    · exact ih (fun x hx => hv x (List.mem_cons_of_mem _ hx)) t h

theorem length_item_words (items : List Item) :
    (item_words items).length ≤ (item_tokens items).length := by
  induction items with
  | nil => simp [item_words, item_tokens]
  | cons it items ih =>
    cases it <;> simp [item_words, item_tokens, Item.toks] <;> omega

/-! ## Tokens are the runs of non-space bytes -/

theorem splitOn_take_token (s : Str) :
    s.splitOn 32 = (take_token s).1 ::
      (if 32 ∈ s then (take_token s).2.splitOn 32 else []) := by
  induction s with
  | nil => simp [take_token, List.splitOn, List.splitOnP_nil]
  | cons c s ih =>
    unfold List.splitOn at ih ⊢
    rw [List.splitOnP_cons]
    by_cases hc : c = 32
    · simp [hc, take_token]
    · have hc2 : ¬ (32 = c) := fun h => hc h.symm
      simp only [beq_iff_eq, hc, if_false, take_token, List.mem_cons, hc2, false_or]
      rw [ih]
      simp

theorem tokens_eq_filter_split : ∀ (n : Nat) (s : Str), s.length ≤ n →
    tokens s = (s.splitOn 32).filter (fun t => !t.isEmpty) := by
  intro n
  induction n with
  | zero =>
    intro s hs
    have : s = [] := List.length_eq_zero.mp (by omega)
    subst this
    rfl
  | succ n ih =>
    intro s hs
    cases s with
    | nil => rfl
    | cons c s =>
      by_cases hc : c = 32
      · have h1 : strtok (c :: s) = strtok s := by simp [strtok, skip_spaces, hc]
        have h2 : tokens (c :: s) = tokens s := by
          rw [tokens_eq (c :: s), tokens_eq s, h1]
        rw [h2, ih s (by simpa using hs)]
        unfold List.splitOn
        rw [List.splitOnP_cons]
        simp [hc]
      · have h1 : strtok (c :: s) = (some (take_token (c :: s)).1, (take_token (c :: s)).2) := by
          simp [strtok, skip_spaces, hc]
        have hlen := length_take_token s
        rw [tokens_of_some (c :: s) _ (by rw [h1]), h1, splitOn_take_token (c :: s)]
        have hne : (take_token (c :: s)).1.isEmpty = false := by simp [take_token, hc]
        simp only [List.filter_cons, hne, Bool.not_false, if_true]
        congr 1
        by_cases hsp : 32 ∈ c :: s
        · simp only [hsp, if_true]
          exact ih _ (by simp only [take_token, hc, if_false]; simp at hs; omega)
        · simp only [hsp, if_false, List.filter_nil]
          rw [take_token_all _ hsp]
          rfl

theorem take_token_fst_no_space (s : Str) : 32 ∉ (take_token s).1 := by
  induction s with
  | nil => simp [take_token]
  | cons c s ih =>
    by_cases hc : c = 32
    · simp [take_token, hc]
    · have hc2 : ¬ (32 = c) := fun h => hc h.symm
      simp [take_token, hc, hc2, ih]

theorem strtok_is_token (s t : Str) (h : (strtok s).1 = some t) : is_token t := by
  unfold strtok at h
  split at h
  · simp at h
  · rename_i c rest heq
    have hc := skip_spaces_head s c rest heq
    simp only [Option.some.injEq] at h
    rw [← h]
    refine ⟨?_, take_token_fst_no_space _⟩
    simp [take_token, hc]

theorem tokens_are_tokens : ∀ (n : Nat) (s : Str), s.length ≤ n →
    ∀ t ∈ tokens s, is_token t := by
  intro n
  induction n with
  | zero =>
    intro s hs t ht
    have : s = [] := List.length_eq_zero.mp (by omega)
    subst this
    simp [tokens, tokens_fuel] at ht
  | succ n ih =>
    intro s hs t ht
    cases h1 : (strtok s).1 with
    | none =>
      rw [tokens_of_none s h1] at ht
      simp at ht
    | some u =>
      rw [tokens_of_some s u h1] at ht
      have hlt := length_strtok s u h1
      rcases List.mem_cons.mp ht with h | h
      · rw [h]
        exact strtok_is_token s u h1
      · exact ih _ (by omega) t h

/-- C7 (amended). Tokenization splits on runs of spaces only: `input_parse` returns, and
the tokens it processes are exactly the maximal runs of bytes other than the space (32) of
the line, i.e. the non-empty pieces of the line split at every space; so no token is empty,
no token contains a space, and leading, trailing or repeated spaces make no token. A tab is
not a separator. -/
theorem tokenization (input : Buf) (p : Parsed) :
    input_parse input p = some (parse_line (cstr input) p) ∧
    tokens (cstr input) = ((cstr input).splitOn 32).filter (fun t => !t.isEmpty) ∧
    ∀ t ∈ tokens (cstr input), t ≠ [] ∧ 32 ∉ t :=
  ⟨input_parse_eq input p, tokens_eq_filter_split _ _ (Nat.le_refl _),
    tokens_are_tokens _ _ (Nat.le_refl _)⟩

/-- C7, as stated, fails on a line in which two words are separated by a tab: the line is
one token, which contains the tab, and argv has that single entry. -/
theorem tokenization_counterexample :
    tokens (cstr (line_buf "ls\t-l")) = [[108, 115, 9, 45, 108]] ∧
    ∃ r, input_parse (line_buf "ls\t-l") (parse_init args_blank) = some r ∧
      argv_at r.args 0 = [[108, 115, 9, 45, 108]] ∧ r.token_index = 1 :=
  ⟨by decide, _, rfl, by decide, by decide⟩
/-! ## A redirection operator at the end of the line -/

theorem parse_tokens_dangling_in : ∀ (n : Nat) (ts : List Str), ts.length ≤ n →
    pending ts = false → ∀ p : Parsed,
    parse_tokens (ts ++ [bytes "<"]) p = { parse_tokens ts p with inpRedirFile := none } := by
  intro n
  induction n with
  | zero =>
    intro ts hl _ p
    have : ts = [] := List.length_eq_zero.mp (by omega)
    subst this
    exact parse_tokens_in_last p
  | succ n ih =>
    intro ts hl hp p
    cases ts with
    | nil => exact parse_tokens_in_last p
    | cons t ts =>
      simp only [List.length_cons] at hl
      by_cases ha : t = bytes "&"
      · have hp2 : pending ts = false := by
          rw [pending.eq_def] at hp
          simpa [ha, bytes] using hp
        rw [ha, List.cons_append, parse_tokens_amp, parse_tokens_amp]
        exact ih ts (by omega) hp2 _
      by_cases hb : t = bytes "<"
      · cases ts with
        | nil => rw [pending.eq_def] at hp; simp [hb] at hp
        | cons f ts =>
          have hp2 : pending ts = false := by
            rw [pending.eq_def] at hp
            simpa [hb] using hp
          simp only [List.length_cons] at hl
          rw [hb, List.cons_append, List.cons_append, parse_tokens_in, parse_tokens_in]
          exact ih ts (by omega) hp2 _
      by_cases hc : t = bytes ">"
      · cases ts with
        | nil => rw [pending.eq_def] at hp; simp [hc] at hp
        | cons f ts =>
          have hp2 : pending ts = false := by
            rw [pending.eq_def] at hp
            simpa [hc] using hp
          simp only [List.length_cons] at hl
          rw [hc, List.cons_append, List.cons_append, parse_tokens_out, parse_tokens_out]
          exact ih ts (by omega) hp2 _
      have hp2 : pending ts = false := by
        rw [pending.eq_def] at hp
        simpa [hb, hc] using hp
      by_cases hd : t = bytes "|"
      · rw [hd, List.cons_append, parse_tokens_pipe, parse_tokens_pipe]
        exact ih ts (by omega) hp2 _
      · rw [List.cons_append, parse_tokens_word t _ p ⟨ha, hb, hc, hd⟩,
          parse_tokens_word t _ p ⟨ha, hb, hc, hd⟩]
        exact ih ts (by omega) hp2 _

theorem parse_tokens_dangling_out : ∀ (n : Nat) (ts : List Str), ts.length ≤ n →
    pending ts = false → ∀ p : Parsed,
    parse_tokens (ts ++ [bytes ">"]) p = { parse_tokens ts p with outpRedirFile := none } := by
  intro n
  induction n with
  | zero =>
    intro ts hl _ p
    have : ts = [] := List.length_eq_zero.mp (by omega)
    subst this
    exact parse_tokens_out_last p
  | succ n ih =>
    intro ts hl hp p
    cases ts with
    | nil => exact parse_tokens_out_last p
    | cons t ts =>
      simp only [List.length_cons] at hl
      by_cases ha : t = bytes "&"
      · have hp2 : pending ts = false := by
          rw [pending.eq_def] at hp
          simpa [ha, bytes] using hp
        rw [ha, List.cons_append, parse_tokens_amp, parse_tokens_amp]
        exact ih ts (by omega) hp2 _
      by_cases hb : t = bytes "<"
      · cases ts with
        | nil => rw [pending.eq_def] at hp; simp [hb] at hp
        | cons f ts =>
          have hp2 : pending ts = false := by
            rw [pending.eq_def] at hp
            simpa [hb] using hp
          simp only [List.length_cons] at hl
          rw [hb, List.cons_append, List.cons_append, parse_tokens_in, parse_tokens_in]
          exact ih ts (by omega) hp2 _
      by_cases hc : t = bytes ">"
      · cases ts with
        | nil => rw [pending.eq_def] at hp; simp [hc] at hp
        | cons f ts =>
          have hp2 : pending ts = false := by
            rw [pending.eq_def] at hp
            simpa [hc] using hp
          simp only [List.length_cons] at hl
          rw [hc, List.cons_append, List.cons_append, parse_tokens_out, parse_tokens_out]
          exact ih ts (by omega) hp2 _
      have hp2 : pending ts = false := by
        rw [pending.eq_def] at hp
        simpa [hb, hc] using hp
      by_cases hd : t = bytes "|"
      · rw [hd, List.cons_append, parse_tokens_pipe, parse_tokens_pipe]
        exact ih ts (by omega) hp2 _
      · rw [List.cons_append, parse_tokens_word t _ p ⟨ha, hb, hc, hd⟩,
          parse_tokens_word t _ p ⟨ha, hb, hc, hd⟩]
        exact ih ts (by omega) hp2 _

/-- C8 (amended). A dangling redirection degrades gracefully: when the last token of the
line is `<` (respectively `>`) and it is not itself taken as the file of a preceding `<` or
`>`, `input_parse` returns, `inpRedirFile` (respectively `outpRedirFile`) is `NULL`, and
`args`, `bkgd`, `pipe_index`, `token_index` and the other file are those that parsing a line
with that last token removed gives. -/
theorem dangling_redirect (input input2 : Buf) (p : Parsed)
    (hpend : pending (tokens (cstr input2)) = false) :
    (tokens (cstr input) = tokens (cstr input2) ++ [bytes "<"] →
      ∃ r r2, input_parse input p = some r ∧ input_parse input2 p = some r2 ∧
        r = { r2 with inpRedirFile := none }) ∧
    (tokens (cstr input) = tokens (cstr input2) ++ [bytes ">"] →
      ∃ r r2, input_parse input p = some r ∧ input_parse input2 p = some r2 ∧
        r = { r2 with outpRedirFile := none }) := by
  refine ⟨fun h => ⟨_, _, input_parse_eq input p, input_parse_eq input2 p, ?_⟩,
    fun h => ⟨_, _, input_parse_eq input p, input_parse_eq input2 p, ?_⟩⟩
  · unfold parse_line
    rw [h, parse_tokens_dangling_in _ _ (Nat.le_refl _) hpend]
  · unfold parse_line
    rw [h, parse_tokens_dangling_out _ _ (Nat.le_refl _) hpend]

theorem dangling_redirect_witness :
    ∃ r r2, input_parse (line_buf "sort > out.txt & <") (parse_init args_blank) = some r ∧
      input_parse (line_buf "sort > out.txt &") (parse_init args_blank) = some r2 ∧
      r = { r2 with inpRedirFile := none } :=
  (dangling_redirect (line_buf "sort > out.txt & <") (line_buf "sort > out.txt &")
    (parse_init args_blank) (by decide)).1 (by decide)

/-- C8, as stated, fails on the line `cat < <`: its last token is `<`, and `input_parse`
takes that token as the input file, so that `inpRedirFile` is not `NULL`. On `cat > <` the
last token `<` becomes the output file, which parsing `cat >` leaves `NULL`. -/
theorem dangling_redirect_counterexample :
    tokens (cstr (line_buf "cat < <")) = [bytes "cat", bytes "<", bytes "<"] ∧
    (∃ r, input_parse (line_buf "cat < <") (parse_init args_blank) = some r ∧
      r.inpRedirFile = some (bytes "<")) ∧
    tokens (cstr (line_buf "cat > <")) = [bytes "cat", bytes ">", bytes "<"] ∧
    (∃ r r2, input_parse (line_buf "cat > <") (parse_init args_blank) = some r ∧
      input_parse (line_buf "cat >") (parse_init args_blank) = some r2 ∧
      r.outpRedirFile = some (bytes "<") ∧ r2.outpRedirFile = none) :=
  ⟨by decide, ⟨_, rfl, by decide⟩, by decide, ⟨_, _, rfl, rfl, by decide, by decide⟩⟩
/-! ## The entries of `args` and the pipe index -/

theorem parse_tokens_stored : ∀ (n : Nat) (ts : List Str), ts.length ≤ n →
    ∀ (pre suf : List (Option Str)) (p : Parsed), p.args = pre ++ suf →
    p.token_index = pre.length → (stored ts).length ≤ suf.length →
    (parse_tokens ts p).args = pre ++ (stored ts ++ suf.drop (stored ts).length) ∧
    (parse_tokens ts p).token_index = pre.length + (stored ts).length ∧
    ((none ∉ stored ts ∧ (parse_tokens ts p).pipe_index = p.pipe_index) ∨
      ∃ A B, stored ts = A ++ none :: B ∧ none ∉ B ∧
        (parse_tokens ts p).pipe_index = ((pre.length + A.length : Nat) : Int)) := by
  intro n
  induction n with
  | zero =>
    intro ts hl pre suf p ha hi _
    have : ts = [] := List.length_eq_zero.mp (by omega)
    subst this
    simp [parse_tokens, stored, ha, hi]
  | succ n ih =>
    intro ts hl pre suf p ha hi hs
    cases ts with
    | nil => simp [parse_tokens, stored, ha, hi]
    | cons t ts =>
      simp only [List.length_cons] at hl
      by_cases h1 : t = bytes "&"
      · have hst : stored (t :: ts) = stored ts := by
          rw [stored.eq_def]; simp [h1]
        rw [hst] at hs ⊢
        rw [h1, parse_tokens_amp]
        exact ih ts (by omega) pre suf { p with bkgd := 1 } ha hi hs
      by_cases h2 : t = bytes "<"
      · cases ts with
        | nil =>
          have hst : stored [t] = [] := by rw [stored.eq_def]; simp [h2, bytes]
          rw [hst, h2, parse_tokens_in_last]
          simp [ha, hi]
        | cons f ts =>
          have hst : stored (t :: f :: ts) = stored ts := by
            rw [stored.eq_def]; simp [h2, bytes]
          simp only [List.length_cons] at hl
          rw [hst] at hs ⊢
          rw [h2, parse_tokens_in]
          exact ih ts (by omega) pre suf { p with inpRedirFile := some f } ha hi hs
      by_cases h3 : t = bytes ">"
      · cases ts with
        | nil =>
          have hst : stored [t] = [] := by rw [stored.eq_def]; simp [h3, bytes]
          rw [hst, h3, parse_tokens_out_last]
          simp [ha, hi]
        | cons f ts =>
          have hst : stored (t :: f :: ts) = stored ts := by
            rw [stored.eq_def]; simp [h3, bytes]
          simp only [List.length_cons] at hl
          rw [hst] at hs ⊢
          rw [h3, parse_tokens_out]
          exact ih ts (by omega) pre suf { p with outpRedirFile := some f } ha hi hs
      by_cases h4 : t = bytes "|"
      · have hst : stored (t :: ts) = none :: stored ts := by
          rw [stored.eq_def]; simp [h4, bytes]
        rw [hst] at hs ⊢
        cases suf with
        | nil => simp at hs
        | cons x suf =>
          rw [h4, parse_tokens_pipe]
          obtain ⟨k1, k2, k3⟩ := ih ts (by omega) (pre ++ [none]) suf
            { p with
              pipe_index := p.token_index
              args := p.args.set p.token_index none
              token_index := p.token_index + 1 }
            (by simp [ha, hi, set_append_length]) (by simp [hi]) (by simpa using hs)
          refine ⟨by simp [k1], by simp [k2]; omega, Or.inr ?_⟩
          rcases k3 with ⟨hno, hp⟩ | ⟨A, B, hAB, hB, hp⟩
          · refine ⟨[], stored ts, rfl, hno, ?_⟩
            rw [hp]
            simp [hi]
          · refine ⟨none :: A, B, by simp [hAB], hB, ?_⟩
            rw [hp]
            simp
            omega
      · have hst : stored (t :: ts) = some t :: stored ts := by
          rw [stored.eq_def]; simp [h1, h2, h3, h4]
        rw [hst] at hs ⊢
        cases suf with
        | nil => simp at hs
        | cons x suf =>
          rw [parse_tokens_word t _ p ⟨h1, h2, h3, h4⟩]
          obtain ⟨k1, k2, k3⟩ := ih ts (by omega) (pre ++ [some t]) suf
            { p with
              args := p.args.set p.token_index (some t)
              token_index := p.token_index + 1 }
            (by simp [ha, hi, set_append_length]) (by simp [hi]) (by simpa using hs)
          refine ⟨by simp [k1], by simp [k2]; omega, ?_⟩
          rcases k3 with ⟨hno, hp⟩ | ⟨A, B, hAB, hB, hp⟩
          · exact Or.inl ⟨by simp [hno], hp⟩
          · refine Or.inr ⟨some t :: A, B, by simp [hAB], hB, ?_⟩
            rw [hp]
            simp
            omega

theorem take_token_length (s : Str) :
    (take_token s).1.length + (take_token s).2.length + 1 ≤ s.length ∨
      ((take_token s).2 = [] ∧ (take_token s).1.length ≤ s.length) := by
  induction s with
  | nil => simp [take_token]
  | cons c s ih =>
    by_cases hc : c = 32
    · simp [take_token, hc]
    · simp only [take_token, hc, if_false, List.length_cons]
      rcases ih with h | ⟨h1, h2⟩
      · exact Or.inl (by omega)
      · exact Or.inr ⟨h1, by omega⟩

theorem length_tokens : ∀ (n : Nat) (s : Str), s.length ≤ n →
    2 * (tokens s).length ≤ s.length + 1 := by
  intro n
  induction n with
  | zero =>
    intro s hs
    have : s = [] := List.length_eq_zero.mp (by omega)
    subst this
    simp [tokens, tokens_fuel]
  | succ n ih =>
    intro s hs
    cases h1 : (strtok s).1 with
    | none => simp [tokens_of_none s h1]
    | some t =>
      rw [tokens_of_some s t h1]
      have hlt := length_strtok s t h1
      have hrec := ih (strtok s).2 (by omega)
      have hskip := length_skip_spaces s
      have hcases : (strtok s).2.length + 2 ≤ s.length ∨ (strtok s).2 = [] := by
        unfold strtok at h1 ⊢
        split
        · exact Or.inr rfl
        · rename_i c rest heq
          have hc := skip_spaces_head s c rest heq
          rw [heq] at hskip
          rcases take_token_length (c :: rest) with h | ⟨h, -⟩
          · left
            simp only [take_token, hc, if_false, List.length_cons] at h hskip ⊢
            omega
          · exact Or.inr h
      simp only [List.length_cons]
      rcases hcases with h | h
      · omega
      · rw [h]
        simp [tokens, tokens_fuel]
        omega

theorem length_stored : ∀ (n : Nat) (ts : List Str), ts.length ≤ n →
    (stored ts).length ≤ ts.length := by
  intro n
  induction n with
  | zero =>
    intro ts hl
    have : ts = [] := List.length_eq_zero.mp (by omega)
    subst this
    simp [stored]
  | succ n ih =>
    intro ts hl
    cases ts with
    | nil => simp [stored]
    | cons t ts =>
      simp only [List.length_cons] at hl
      have h1 := ih ts (by omega)
      rw [stored.eq_def]
      simp only
      split_ifs
      · simp only [List.length_cons]; omega
      · cases ts with
        | nil => simp
        | cons f ts =>
          simp only [List.length_cons] at hl ⊢
          have := ih ts (by omega)
          omega
      · simp only [List.length_cons]; omega
      · simp only [List.length_cons]; omega

theorem parse_line_stored (s : Str) (args : List (Option Str))
    (hlen : s.length + 1 ≤ MAX_LINE) (hargs : args.length = MAX_LINE) :
    (parse_line s (parse_init args)).args =
      stored (tokens s) ++ none :: args.drop ((stored (tokens s)).length + 1) ∧
    (parse_line s (parse_init args)).token_index = (stored (tokens s)).length ∧
    (stored (tokens s)).length ≤ 40 ∧
    ((none ∉ stored (tokens s) ∧ (parse_line s (parse_init args)).pipe_index = -1) ∨
      ∃ A B, stored (tokens s) = A ++ none :: B ∧ none ∉ B ∧
        (parse_line s (parse_init args)).pipe_index = (A.length : Int)) := by
  have h1 := length_tokens _ s (Nat.le_refl _)
  have h2 := length_stored _ (tokens s) (Nat.le_refl _)
  simp only [MAX_LINE] at hlen hargs
  obtain ⟨k1, k2, k3⟩ := parse_tokens_stored _ (tokens s) (Nat.le_refl _) [] args
    { parse_init args with token_index := 0 } rfl rfl (by omega)
  obtain ⟨y, hy⟩ : ∃ y, args.drop (stored (tokens s)).length =
      y :: args.drop ((stored (tokens s)).length + 1) :=
    ⟨args[(stored (tokens s)).length], List.drop_eq_getElem_cons (by omega)⟩
  simp only [List.nil_append, List.length_nil, Nat.zero_add] at k1 k2 k3
  refine ⟨?_, ?_, by omega, ?_⟩
  · show (parse_tokens _ _).args.set (parse_tokens _ _).token_index none = _
    rw [k1, k2, hy, set_append_length]
  · exact k2
  · exact k3

theorem getElem?_append_length {α : Type} (A : List α) (x : α) (R : List α) :
    (A ++ x :: R)[A.length]? = some x := by
  induction A with
  | nil => simp
  | cons a A ih => simpa using ih

/-- C6 (amended). When `input_parse` reports a pipe (`pipe_index != -1`), `pipe_index` is
the index of a `NULL` entry of `args` strictly below the final sentinel; the stage-one argv
(read from index 0) is non-empty exactly when the first entry stored in `args` is not a
`|`, and the stage-two argv (read from `pipe_index + 1`) is non-empty exactly when the last
entry stored in `args` is not a `|`. Either stage can be empty. -/
theorem pipe_split_stages (input : Buf) (args : List (Option Str))
    (hlen : strlen input + 1 ≤ MAX_LINE) (hargs : args.length = MAX_LINE) :
    ∃ r, input_parse input (parse_init args) = some r ∧
      (r.pipe_index ≠ -1 →
        ∃ k : Nat, r.pipe_index = (k : Int) ∧ k < r.token_index ∧
          r.args[k]? = some none ∧ r.args[r.token_index]? = some none ∧
          (argv_at r.args 0 ≠ [] ↔ (stored (tokens (cstr input))).head? ≠ some none) ∧
          (argv_at r.args (k + 1) ≠ [] ↔
            (stored (tokens (cstr input))).getLast? ≠ some none)) := by
  refine ⟨_, input_parse_eq input (parse_init args), fun hp => ?_⟩
  obtain ⟨h1, h2, h3, h4⟩ := parse_line_stored (cstr input) args hlen hargs
  rcases h4 with ⟨-, hno⟩ | ⟨A, B, hAB, hB, hk⟩
  · exact absurd hno hp
  · refine ⟨A.length, hk, ?_, ?_, ?_, ?_, ?_⟩
    · rw [h2, hAB]
      simp
    · rw [h1, hAB, List.append_assoc]
      exact getElem?_append_length A none _
    · rw [h1, h2]
      exact getElem?_append_length _ none _
    · rw [h1, hAB]
      cases A with
      | nil => simp [argv_at]
      | cons a A =>
        cases a <;> simp [argv_at]
    · rw [h1, hAB]
      generalize List.drop ((A ++ none :: B).length + 1) args = rest
      have hskip := argv_at_skip (A ++ [none]) (B ++ none :: rest)
      simp only [List.length_append, List.length_singleton, List.append_assoc,
        List.singleton_append] at hskip
      simp only [List.append_assoc, List.cons_append]
      rw [hskip]
      cases B with
      | nil => simp [argv_at]
      | cons b B =>
        have hlast : (A ++ none :: b :: B).getLast? ≠ some none := by
          intro h
          rw [List.getLast?_append_of_ne_nil _ (by simp)] at h
          rw [show none :: b :: B = [none] ++ (b :: B) from rfl,
            List.getLast?_append_of_ne_nil _ (by simp)] at h
          exact hB (List.mem_of_getLast?_eq_some h)
        cases b with
        | none => simp at hB
        | some t =>
          simp only [List.cons_append, argv_at]
          exact ⟨fun _ => hlast, fun _ => by simp⟩

/-- C6, as stated, fails on the line `ls |`: a pipe is reported at index 1 and the
stage-two argv, read from index 2, is empty. On `| ls` the stage-one argv is empty. -/
theorem pipe_split_stages_counterexample :
    (∃ r, input_parse (line_buf "ls |") (parse_init args_blank) = some r ∧
      r.pipe_index = 1 ∧ argv_at r.args 0 = [bytes "ls"] ∧ argv_at r.args 2 = []) ∧
    (∃ r, input_parse (line_buf "| ls") (parse_init args_blank) = some r ∧
      r.pipe_index = 0 ∧ argv_at r.args 0 = [] ∧ argv_at r.args 1 = [bytes "ls"]) :=
  ⟨⟨_, rfl, by decide, by decide, by decide⟩, ⟨_, rfl, by decide, by decide, by decide⟩⟩

theorem pipe_split_stages_witness :
    ∃ r, input_parse (line_buf "ls -l | wc") (parse_init args_blank) = some r ∧
      (r.pipe_index ≠ -1 →
        ∃ k : Nat, r.pipe_index = (k : Int) ∧ k < r.token_index ∧
          r.args[k]? = some none ∧ r.args[r.token_index]? = some none ∧
          (argv_at r.args 0 ≠ [] ↔
            (stored (tokens (cstr (line_buf "ls -l | wc")))).head? ≠ some none) ∧
          (argv_at r.args (k + 1) ≠ [] ↔
            (stored (tokens (cstr (line_buf "ls -l | wc")))).getLast? ≠ some none)) :=
  pipe_split_stages (line_buf "ls -l | wc") args_blank (by decide) (by decide)
/-! ## The engine after a failed `execvp`, and the foreground wait -/

theorem run_simple_exec_fails (r : Parsed) (os : Os) (h0 : os.fork1 = 0)
    (hf : os.exec_left_fails = true) :
    run_simple r os = ([Call.fork] ++ redirect_in r ++ redirect_out r ++
      [exec_at r 0, Call.printf (not_found_text r), Call.exit 1], Next.exited 1) := by
  simp [run_simple, h0, hf]

/-- C9. The code at the failing input `nosuch | wc`. In the left child (first `fork`
returns 0) whose `execvp` returns, the process goes on: it forks (here the `fork` returns
4321), closes the pipe ends, waits with `waitpid`, sets the terminal mode and goes on with
the loop of `main`. In the right child (second `fork` returns 0) whose `execvp` returns,
the process goes on with the loop of `main` as well. In the branch without pipe the child
prints the error and exits with status 1. -/
theorem failed_exec_in_pipe_child :
    ∃ r, input_parse (line_buf "nosuch | wc") (parse_init args_blank) = some r ∧
      run_command r ⟨0, 4321, true, false⟩ =
        ([Call.tcsetattr Mode.canon, Call.pipe, Call.fork,
          Call.close Fd.pipe_read, Call.dup2 Fd.pipe_write Fd.stdout, Call.close Fd.pipe_write,
          Call.execvp (some (bytes "nosuch")) [bytes "nosuch"],
          Call.fork, Call.close Fd.pipe_read, Call.close Fd.pipe_write,
          Call.waitpid 0, Call.waitpid 4321, Call.tcsetattr Mode.noncanon], Next.loop) ∧
      run_command r ⟨1234, 0, false, true⟩ =
        ([Call.tcsetattr Mode.canon, Call.pipe, Call.fork,
          Call.fork, Call.close Fd.pipe_write, Call.dup2 Fd.pipe_read Fd.stdin,
          Call.close Fd.pipe_read,
          Call.execvp (some (bytes "wc")) [bytes "wc"]], Next.loop) ∧
      ∃ r2, input_parse (line_buf "nosuch") (parse_init args_blank) = some r2 ∧
        run_command r2 ⟨0, 0, true, false⟩ =
          ([Call.fork, Call.execvp (some (bytes "nosuch")) [bytes "nosuch"],
            Call.printf (bytes "Error: \"nosuch\" command not found\n"), Call.exit 1],
            Next.exited 1) :=
  ⟨_, rfl, by decide, by decide, _, rfl, by decide⟩

theorem run_simple_parent (r : Parsed) (os : Os) (hp : 0 < os.fork1) :
    run_simple r os =
      (if r.bkgd = 0 then ([Call.fork, Call.wait], Next.loop) else ([Call.fork], Next.loop)) := by
  have h0 : os.fork1 ≠ 0 := by omega
  simp [run_simple, h0, hp]

/-- C10. The code at the failing input, the foreground line `sleep 5` with the `fork`
returning the child 4242: the parent calls `wait(NULL)`, not `waitpid(4242, ..)`, and that
call returns on the termination of any child, for instance of an earlier background child
7, whereas `waitpid(4242, ..)` does not. On the background line `sleep 5 &` the parent
makes no wait call and goes on with the loop. -/
theorem foreground_wait_any_child :
    ∃ r, input_parse (line_buf "sleep 5") (parse_init args_blank) = some r ∧
      r.bkgd = 0 ∧
      run_command r ⟨4242, 0, false, false⟩ = ([Call.fork, Call.wait], Next.loop) ∧
      Call.wait.accepts 7 = true ∧ (Call.waitpid 4242).accepts 7 = false ∧
      ∃ r2, input_parse (line_buf "sleep 5 &") (parse_init args_blank) = some r2 ∧
        r2.bkgd = 1 ∧ run_command r2 ⟨4242, 0, false, false⟩ = ([Call.fork], Next.loop) :=
  ⟨_, rfl, by decide, by decide, by decide, by decide, _, rfl, by decide, by decide⟩
/-! ## Unfolding the loop of the editor -/

theorem loop_stop (prompt : Str) (stream : List Nat) (e : Edit) (h : ¬ e.index < 79) :
    noncanon_loop prompt stream e = some (e, stream) := by
  cases stream <;> (unfold noncanon_loop; simp [MAX_LINE, h])

theorem loop_newline (prompt : Str) (rest : List Nat) (e : Edit) (h : e.index < 79) :
    noncanon_loop prompt (10 :: rest) e = some (e, rest) := by
  unfold noncanon_loop
  simp [MAX_LINE, h]

theorem loop_erase (prompt : Str) (rest : List Nat) (e : Edit) (h : e.index < 79) :
    noncanon_loop prompt (127 :: rest) e = noncanon_loop prompt rest (key_erase e) := by
  rw [noncanon_loop.eq_def]
  simp [MAX_LINE, h]

theorem loop_escape (prompt : Str) (s0 s1 : Nat) (rest : List Nat) (e : Edit)
    (h : e.index < 79) :
    noncanon_loop prompt (27 :: s0 :: s1 :: rest) e =
      noncanon_loop prompt rest (key_escape prompt s0 s1 e) := by
  rw [noncanon_loop.eq_def]
  simp [MAX_LINE, h]

theorem loop_char (prompt : Str) (c : Nat) (rest : List Nat) (e : Edit) (h : e.index < 79)
    (h1 : c ≠ 10) (h2 : c ≠ 127) (h3 : c ≠ 27) :
    noncanon_loop prompt (c :: rest) e = noncanon_loop prompt rest (key_char c e) := by
  rw [noncanon_loop.eq_def]
  simp [MAX_LINE, h, h1, h2, h3]

theorem states_stop (prompt : Str) (stream : List Nat) (e : Edit) (h : ¬ e.index < 79) :
    noncanon_states prompt stream e = [e] := by
  cases stream <;> (unfold noncanon_states; simp [MAX_LINE, h])

theorem states_newline (prompt : Str) (rest : List Nat) (e : Edit) :
    noncanon_states prompt (10 :: rest) e = [e] := by
  unfold noncanon_states
  simp

theorem states_erase (prompt : Str) (rest : List Nat) (e : Edit) (h : e.index < 79) :
    noncanon_states prompt (127 :: rest) e = e :: noncanon_states prompt rest (key_erase e) := by
  rw [noncanon_states.eq_def]
  simp [MAX_LINE, h]

theorem states_escape (prompt : Str) (s0 s1 : Nat) (rest : List Nat) (e : Edit)
    (h : e.index < 79) :
    noncanon_states prompt (27 :: s0 :: s1 :: rest) e =
      e :: noncanon_states prompt rest (key_escape prompt s0 s1 e) := by
  rw [noncanon_states.eq_def]
  simp [MAX_LINE, h]

theorem states_escape_short (prompt : Str) (rest : List Nat) (e : Edit)
    (hr : rest.length < 2) : noncanon_states prompt (27 :: rest) e = [e] := by
  rw [noncanon_states.eq_def]
  match rest, hr with
  | [], _ => simp
  | [_], _ => simp

theorem states_char (prompt : Str) (c : Nat) (rest : List Nat) (e : Edit) (h : e.index < 79)
    (h1 : c ≠ 10) (h2 : c ≠ 127) (h3 : c ≠ 27) :
    noncanon_states prompt (c :: rest) e = e :: noncanon_states prompt rest (key_char c e) := by
  rw [noncanon_states.eq_def]
  simp [MAX_LINE, h, h1, h2, h3]

/-! ## Bounds kept by the editor -/

theorem bounded_init (g : Globals) (chars : Buf) (h : chars.length = MAX_LINE) :
    (edit_init g chars).bounded g := by
  simp [Edit.bounded, edit_init, memset0, MAX_LINE] at h ⊢
  omega

theorem bounded_erase (g : Globals) (e : Edit) (h : e.bounded g) : (key_erase e).bounded g := by
  obtain ⟨h1, h2, h3, h4, h5⟩ := h
  unfold key_erase
  split
  · exact ⟨h1, h2, h3, by simp only [MAX_LINE] at h4 ⊢; omega, h5⟩
  · exact ⟨h1, h2, h3, h4, h5⟩

theorem bounded_char (g : Globals) (c : Nat) (e : Edit) (h : e.bounded g)
    (hi : e.index < 79) : (key_char c e).bounded g := by
  obtain ⟨h1, h2, h3, h4, h5⟩ := h
  exact ⟨h1, h2, h3, by simp only [key_char, MAX_LINE]; omega, by simpa [key_char] using h5⟩

theorem bounded_get_history (prompt : Str) (g : Globals) (e : Edit)
    (hent : ∀ i, i < g.history_count → strlen (g.row i) ≤ 79)
    (h1 : e.g.history = g.history) (h2 : e.g.history_count = g.history_count)
    (h3 : e.g.history_index < g.history_count) (h5 : e.chars.length = MAX_LINE) :
    (get_history prompt e).bounded g := by
  have hrow : e.g.row e.g.history_index = g.row e.g.history_index := by
    simp [Globals.row, h1]
  have hlen := hent _ h3
  refine ⟨h1, h2, Nat.le_of_lt h3, ?_, ?_⟩
  · simp only [get_history, strlen, cstr_strcpy, hrow, MAX_LINE]
    exact hlen
  · simp only [get_history, hrow]
    rw [length_strcpy _ _ (by rw [h5]; simp only [MAX_LINE]; omega)]
    exact h5

theorem bounded_up (prompt : Str) (g : Globals) (e : Edit)
    (hent : ∀ i, i < g.history_count → strlen (g.row i) ≤ 79) (h : e.bounded g) :
    (key_up prompt e).bounded g := by
  obtain ⟨h1, h2, h3, h4, h5⟩ := h
  unfold key_up
  split
  · rename_i hc
    exact bounded_get_history prompt g _ hent h1 h2 (by simp only; omega) h5
  · exact ⟨h1, h2, h3, h4, h5⟩

theorem bounded_down (prompt : Str) (g : Globals) (e : Edit)
    (hent : ∀ i, i < g.history_count → strlen (g.row i) ≤ 79) (h : e.bounded g) :
    (key_down prompt e).bounded g := by
  obtain ⟨h1, h2, h3, h4, h5⟩ := h
  unfold key_down
  split
  · rename_i hc
    exact bounded_get_history prompt g _ hent h1 h2 (by simp only; omega) h5
  · split
    · refine ⟨h1, h2, by simp only; omega, by simp [MAX_LINE], ?_⟩
      simp only [memset0, MAX_LINE, List.length_append, List.length_replicate,
        List.length_drop] at h5 ⊢
      omega
    · exact ⟨h1, h2, h3, h4, h5⟩

theorem bounded_escape (prompt : Str) (g : Globals) (s0 s1 : Nat) (e : Edit)
    (hent : ∀ i, i < g.history_count → strlen (g.row i) ≤ 79) (h : e.bounded g) :
    (key_escape prompt s0 s1 e).bounded g := by
  unfold key_escape
  split
  · exact bounded_up prompt g e hent h
  · split
    · exact bounded_down prompt g e hent h
    · exact h

theorem states_invariant (prompt : Str) (P : Edit → Prop)
    (herase : ∀ e, P e → P (key_erase e))
    (hchar : ∀ c e, P e → e.index < 79 → P (key_char c e))
    (hescape : ∀ s0 s1 e, P e → P (key_escape prompt s0 s1 e)) :
    ∀ (n : Nat) (stream : List Nat) (e : Edit), stream.length ≤ n → P e →
      ∀ x ∈ noncanon_states prompt stream e, P x := by
  intro n
  induction n with
  | zero =>
    intro stream e hl he x hx
    have : stream = [] := List.length_eq_zero.mp (by omega)
    subst this
    simp only [noncanon_states, List.mem_singleton] at hx
    rw [hx]; exact he
  | succ n ih =>
    intro stream e hl he x hx
    by_cases hi : e.index < 79
    · cases stream with
      | nil =>
        simp only [noncanon_states, List.mem_singleton] at hx
        rw [hx]; exact he
      | cons c rest =>
        simp only [List.length_cons] at hl
        by_cases h1 : c = 10
        · rw [h1, states_newline] at hx
          rw [List.mem_singleton.mp hx]; exact he
        by_cases h2 : c = 127
        · rw [h2, states_erase _ _ _ hi] at hx
          rcases List.mem_cons.mp hx with h | h
          · rw [h]; exact he
          · exact ih rest _ (by omega) (herase e he) x h
        by_cases h3 : c = 27
        · match rest, hl with
          | [], _ =>
            rw [h3, states_escape_short _ _ _ (by simp)] at hx
            rw [List.mem_singleton.mp hx]; exact he
          | [_], _ =>
            rw [h3, states_escape_short _ _ _ (by simp)] at hx
            rw [List.mem_singleton.mp hx]; exact he
          | s0 :: s1 :: rest2, hl =>
            simp only [List.length_cons] at hl
            rw [h3, states_escape _ _ _ _ _ hi] at hx
            rcases List.mem_cons.mp hx with h | h
            · rw [h]; exact he
            · exact ih rest2 _ (by omega) (hescape s0 s1 e he) x h
        · rw [states_char _ _ _ _ hi h1 h2 h3] at hx
          rcases List.mem_cons.mp hx with h | h
          · rw [h]; exact he
          · exact ih rest _ (by omega) (hchar c e he hi) x h
    · rw [states_stop _ _ _ hi] at hx
      rw [List.mem_singleton.mp hx]; exact he

theorem bounded_states (prompt : Str) (g : Globals)
    (hent : ∀ i, i < g.history_count → strlen (g.row i) ≤ 79) :
    ∀ (n : Nat) (stream : List Nat) (e : Edit), stream.length ≤ n → e.bounded g →
      ∀ x ∈ noncanon_states prompt stream e, x.bounded g :=
  states_invariant prompt (fun e => e.bounded g) (bounded_erase g)
    (fun c e he hi => bounded_char g c e he hi)
    (fun s0 s1 e he => bounded_escape prompt g s0 s1 e hent he)

theorem loop_result (prompt : Str) :
    ∀ (n : Nat) (stream : List Nat) (e r : Edit) (rest : List Nat), stream.length ≤ n →
      noncanon_loop prompt stream e = some (r, rest) →
      (noncanon_states prompt stream e).getLast? = some r ∧
      ((¬ r.index < 79 ∧ ∃ pre, stream = pre ++ rest) ∨ ∃ pre, stream = pre ++ 10 :: rest) := by
  intro n
  induction n with
  | zero =>
    intro stream e r rest hl h
    have : stream = [] := List.length_eq_zero.mp (by omega)
    subst this
    by_cases hi : e.index < 79
    · simp [noncanon_loop, MAX_LINE, hi] at h
    · rw [loop_stop _ _ _ hi] at h
      simp only [Option.some.injEq, Prod.mk.injEq] at h
      obtain ⟨h1, h2⟩ := h
      subst h1 h2
      exact ⟨by simp [noncanon_states], Or.inl ⟨hi, [], rfl⟩⟩
  | succ n ih =>
    intro stream e r rest hl h
    by_cases hi : e.index < 79
    · cases stream with
      | nil => simp [noncanon_loop, MAX_LINE, hi] at h
      | cons c tail =>
        simp only [List.length_cons] at hl
        have hcons : ∀ (tail2 : List Nat) (e2 : Edit) (skipped : List Nat),
            c :: tail = skipped ++ tail2 → tail2.length ≤ n →
            noncanon_loop prompt tail2 e2 = some (r, rest) →
            noncanon_states prompt (c :: tail) e = e :: noncanon_states prompt tail2 e2 →
            (noncanon_states prompt (c :: tail) e).getLast? = some r ∧
            ((¬ r.index < 79 ∧ ∃ pre, c :: tail = pre ++ rest) ∨
              ∃ pre, c :: tail = pre ++ 10 :: rest) := by
          intro tail2 e2 skipped hsk hl2 hloop hst
          obtain ⟨k1, k2⟩ := ih tail2 e2 r rest hl2 hloop
          refine ⟨?_, ?_⟩
          · rw [hst, List.getLast?_cons]
            rw [k1]
            rfl
          · rcases k2 with ⟨ks, pre, hpre⟩ | ⟨pre, hpre⟩
            · exact Or.inl ⟨ks, skipped ++ pre, by rw [hsk, hpre, List.append_assoc]⟩
            · exact Or.inr ⟨skipped ++ pre, by rw [hsk, hpre, List.append_assoc]⟩
        by_cases h1 : c = 10
        · rw [h1, loop_newline _ _ _ hi] at h
          simp only [Option.some.injEq, Prod.mk.injEq] at h
          obtain ⟨k1, k2⟩ := h
          subst k1 k2
          exact ⟨by rw [h1, states_newline]; rfl, Or.inr ⟨[], by rw [h1]; rfl⟩⟩
        by_cases h2 : c = 127
        · rw [h2, loop_erase _ _ _ hi] at h
          exact hcons tail (key_erase e) [c] rfl (by omega) h
            (by rw [h2, states_erase _ _ _ hi])
        by_cases h3 : c = 27
        · match tail, hl, h with
          | [], _, h => rw [h3, noncanon_loop.eq_def] at h; simp [MAX_LINE, hi] at h
          | [_], _, h => rw [h3, noncanon_loop.eq_def] at h; simp [MAX_LINE, hi] at h
          | s0 :: s1 :: rest2, hl, h =>
            simp only [List.length_cons] at hl
            rw [h3, loop_escape _ _ _ _ _ hi] at h
            rw [h3]
            rw [h3] at hcons
            exact hcons rest2 (key_escape prompt s0 s1 e) [27, s0, s1] rfl (by omega) h
              (states_escape _ _ _ _ _ hi)
        · rw [loop_char _ _ _ _ hi h1 h2 h3] at h
          exact hcons tail (key_char c e) [c] rfl (by omega) h
            (states_char _ _ _ _ hi h1 h2 h3)
    · rw [loop_stop _ _ _ hi] at h
      simp only [Option.some.injEq, Prod.mk.injEq] at h
      obtain ⟨h1, h2⟩ := h
      subst h1 h2
      exact ⟨by rw [states_stop _ _ _ hi]; rfl, Or.inl ⟨hi, [], rfl⟩⟩

theorem loop_newline_returns (prompt : Str) (tail : List Nat) (e : Edit) :
    (noncanon_loop prompt (10 :: tail) e).isSome = true := by
  by_cases hi : e.index < 79
  · rw [loop_newline _ _ _ hi]; rfl
  · rw [loop_stop _ _ _ hi]; rfl

theorem loop_returns (prompt : Str) :
    ∀ (n : Nat) (stream : List Nat) (e : Edit), stream.length ≤ n →
      (noncanon_loop prompt (stream ++ [10, 10, 10]) e).isSome = true := by
  intro n
  induction n with
  | zero =>
    intro stream e hl
    have : stream = [] := List.length_eq_zero.mp (by omega)
    subst this
    exact loop_newline_returns prompt _ e
  | succ n ih =>
    intro stream e hl
    by_cases hi : e.index < 79
    · cases stream with
      | nil => exact loop_newline_returns prompt _ e
      | cons c tail =>
        simp only [List.length_cons] at hl
        by_cases h1 : c = 10
        · rw [h1]; exact loop_newline_returns prompt _ e
        by_cases h2 : c = 127
        · rw [h2, List.cons_append, loop_erase _ _ _ hi]
          exact ih tail _ (by omega)
        by_cases h3 : c = 27
        · match tail, hl with
          | [], _ =>
            rw [h3]
            show (noncanon_loop prompt (27 :: 10 :: 10 :: [10]) e).isSome = true
            rw [loop_escape _ _ _ _ _ hi]
            exact loop_newline_returns prompt _ _
          | [s0], _ =>
            rw [h3]
            show (noncanon_loop prompt (27 :: s0 :: 10 :: [10, 10]) e).isSome = true
            rw [loop_escape _ _ _ _ _ hi]
            exact loop_newline_returns prompt _ _
          | s0 :: s1 :: rest2, hl =>
            simp only [List.length_cons] at hl
            rw [h3]
            show (noncanon_loop prompt (27 :: s0 :: s1 :: (rest2 ++ [10, 10, 10])) e).isSome = true
            rw [loop_escape _ _ _ _ _ hi]
            exact ih rest2 _ (by omega)
        · rw [List.cons_append, loop_char _ _ _ _ hi h1 h2 h3]
          exact ih tail _ (by omega)
    · rw [loop_stop _ _ _ hi]; rfl

theorem length_cstr_set_zero : ∀ (l : Buf) (i : Nat), i < l.length →
    (cstr (l.set i 0)).length ≤ i := by
  intro l
  induction l with
  | nil => intro i h; simp at h
  | cons c l ih =>
    intro i h
    cases i with
    | zero => simp [cstr]
    | succ i =>
      simp only [List.length_cons] at h
      simp only [List.set_cons_succ, cstr]
      split
      · simp
      · simp only [List.length_cons]
        have := ih i (by omega)
        omega

theorem loop_prefix (prompt : Str) :
    ∀ (n : Nat) (stream : List Nat) (e r : Edit) (rest : List Nat), stream.length ≤ n →
      noncanon_loop prompt stream e = some (r, rest) →
      ∃ pre, (∀ tail, noncanon_loop prompt (pre ++ tail) e = noncanon_loop prompt tail r) ∧
        ((¬ r.index < 79 ∧ stream = pre ++ rest) ∨
          (r.index < 79 ∧ stream = pre ++ 10 :: rest)) := by
  intro n
  induction n with
  | zero =>
    intro stream e r rest hl h
    have : stream = [] := List.length_eq_zero.mp (by omega)
    subst this
    by_cases hi : e.index < 79
    · simp [noncanon_loop, MAX_LINE, hi] at h
    · rw [loop_stop _ _ _ hi] at h
      simp only [Option.some.injEq, Prod.mk.injEq] at h
      obtain ⟨h1, h2⟩ := h
      subst h1 h2
      exact ⟨[], fun tail => rfl, Or.inl ⟨hi, rfl⟩⟩
  | succ n ih =>
    intro stream e r rest hl h
    by_cases hi : e.index < 79
    · cases stream with
      | nil => simp [noncanon_loop, MAX_LINE, hi] at h
      | cons c tail0 =>
        simp only [List.length_cons] at hl
        have hcons : ∀ (tail2 : List Nat) (e2 : Edit) (skipped : List Nat),
            c :: tail0 = skipped ++ tail2 → tail2.length ≤ n →
            noncanon_loop prompt tail2 e2 = some (r, rest) →
            (∀ tail, noncanon_loop prompt (skipped ++ tail) e = noncanon_loop prompt tail e2) →
            ∃ pre, (∀ tail, noncanon_loop prompt (pre ++ tail) e = noncanon_loop prompt tail r) ∧
              ((¬ r.index < 79 ∧ c :: tail0 = pre ++ rest) ∨
                (r.index < 79 ∧ c :: tail0 = pre ++ 10 :: rest)) := by
          intro tail2 e2 skipped hsk hl2 hloop hstep
          obtain ⟨pre, k1, k2⟩ := ih tail2 e2 r rest hl2 hloop
          refine ⟨skipped ++ pre, fun tail => ?_, ?_⟩
          · rw [List.append_assoc, hstep, k1]
          · rcases k2 with ⟨ks, hpre⟩ | ⟨ks, hpre⟩
            · exact Or.inl ⟨ks, by rw [hsk, hpre, List.append_assoc]⟩
            · exact Or.inr ⟨ks, by rw [hsk, hpre, List.append_assoc]⟩
        by_cases h1 : c = 10
        · rw [h1, loop_newline _ _ _ hi] at h
          simp only [Option.some.injEq, Prod.mk.injEq] at h
          obtain ⟨k1, k2⟩ := h
          subst k1 k2
          exact ⟨[], fun tail => rfl, Or.inr ⟨hi, by rw [h1]; rfl⟩⟩
        by_cases h2 : c = 127
        · rw [h2, loop_erase _ _ _ hi] at h
          exact hcons tail0 (key_erase e) [c] rfl (by omega) h
            (fun tail => by rw [h2]; exact loop_erase _ _ _ hi)
        by_cases h3 : c = 27
        · match tail0, hl, h with
          | [], _, h => rw [h3, noncanon_loop.eq_def] at h; simp [MAX_LINE, hi] at h
          | [_], _, h => rw [h3, noncanon_loop.eq_def] at h; simp [MAX_LINE, hi] at h
          | s0 :: s1 :: rest2, hl, h =>
            simp only [List.length_cons] at hl
            rw [h3, loop_escape _ _ _ _ _ hi] at h
            rw [h3]
            rw [h3] at hcons
            exact hcons rest2 (key_escape prompt s0 s1 e) [27, s0, s1] rfl (by omega) h
              (fun tail => loop_escape _ _ _ _ _ hi)
        · rw [loop_char _ _ _ _ hi h1 h2 h3] at h
          exact hcons tail0 (key_char c e) [c] rfl (by omega) h
            (fun tail => loop_char _ _ _ _ hi h1 h2 h3)
    · rw [loop_stop _ _ _ hi] at h
      simp only [Option.some.injEq, Prod.mk.injEq] at h
      obtain ⟨h1, h2⟩ := h
      subst h1 h2
      exact ⟨[], fun tail => rfl, Or.inl ⟨hi, rfl⟩⟩

/-- C11 (amended). Line length bound of the editor: with an 80-byte array `chars` and
history entries of at most 79 bytes, in every state at the head of the loop of
`noncanon_input`, on every keystroke stream, `index` is at most 79 and `chars` keeps its 80
bytes (no copy or write goes beyond it); when the function returns, the final NUL is
written at an index of at most 79 and the line returned has at most 79 bytes. Reading stops
at the head of an iteration of the loop, and only there: with `index = 79` no further byte
is read, and with `index < 79` a newline read as the first byte of the iteration ends the
loop at once; when the loop returns, the bytes read before were read in whole iterations
and one of these two cases holds. The two bytes that follow an escape byte (27) are read
without being tested, so a newline among them does not stop the reading, and any first
byte other than 10 and 27 is handled and the reading goes on. The function returns on every
stream followed by three newline bytes. -/
theorem line_length_bound (prompt : Str) (g : Globals) (chars : Buf) (stream : List Nat)
    (hchars : chars.length = MAX_LINE)
    (hent : ∀ i, i < g.history_count → strlen (g.row i) ≤ 79) :
    (∀ e ∈ noncanon_states prompt stream (edit_init g chars),
      e.index ≤ 79 ∧ e.chars.length = 80) ∧
    (∀ r rest, noncanon_input prompt g chars stream = some (r, rest) →
      r.index ≤ 79 ∧ r.chars.length = 80 ∧ strlen r.chars ≤ 79 ∧
      ((r.index = 79 ∧ ∃ pre, stream = pre ++ rest) ∨ ∃ pre, stream = pre ++ 10 :: rest)) ∧
    (∀ (e : Edit) (tail : List Nat), e.index = 79 →
      noncanon_loop prompt tail e = some (e, tail)) ∧
    (∀ (e : Edit) (tail : List Nat), e.index < 79 →
      noncanon_loop prompt (10 :: tail) e = some (e, tail)) ∧
    (noncanon_input prompt g chars (stream ++ [10, 10, 10])).isSome = true ∧
    (∀ r0 rest, noncanon_loop prompt stream (edit_init g chars) = some (r0, rest) →
      ∃ pre, (∀ tail, noncanon_loop prompt (pre ++ tail) (edit_init g chars) =
          noncanon_loop prompt tail r0) ∧
        ((r0.index = 79 ∧ stream = pre ++ rest) ∨
          (r0.index < 79 ∧ stream = pre ++ 10 :: rest))) ∧
    (∀ (e : Edit) (s0 s1 : Nat) (tail : List Nat), e.index < 79 →
      noncanon_loop prompt (27 :: s0 :: s1 :: tail) e =
        noncanon_loop prompt tail (key_escape prompt s0 s1 e) ∧
      (s0 = 10 ∨ s1 = 10 →
        noncanon_loop prompt (27 :: s0 :: s1 :: tail) e = noncanon_loop prompt tail e)) ∧
    (∀ (e : Edit) (c : Nat) (tail : List Nat), e.index < 79 → c ≠ 10 → c ≠ 27 →
      noncanon_loop prompt (c :: tail) e =
        noncanon_loop prompt tail (if c = 127 then key_erase e else key_char c e)) := by
  have hinit := bounded_init g chars hchars
  have hall := bounded_states prompt g hent _ stream _ (Nat.le_refl _) hinit
  refine ⟨fun e he => ?_, fun r rest hr => ?_, fun e tail he => ?_,
    fun e tail he => loop_newline prompt tail e he, ?_, fun r0 rest hr => ?_,
    fun e s0 s1 tail he => ⟨loop_escape prompt s0 s1 tail e he, fun h10 => ?_⟩,
    fun e c tail he h10 h27 => ?_⟩
  · obtain ⟨-, -, -, h4, h5⟩ := hall e he
    exact ⟨h4, h5⟩
  · unfold noncanon_input at hr
    cases hloop : noncanon_loop prompt stream (edit_init g chars) with
    | none => rw [hloop] at hr; simp at hr
    | some res =>
      obtain ⟨r0, rest0⟩ := res
      rw [hloop] at hr
      simp only [Option.map_some', Option.some.injEq, Prod.mk.injEq] at hr
      obtain ⟨hr1, hr2⟩ := hr
      subst hr2
      obtain ⟨k1, k2⟩ := loop_result prompt _ stream _ r0 rest0 (Nat.le_refl _) hloop
      obtain ⟨-, -, -, h4, h5⟩ := hall r0 (List.mem_of_getLast?_eq_some k1)
      simp only [MAX_LINE] at h4 h5
      have hlen : r.chars.length = 80 := by rw [← hr1]; simpa [edit_finish] using h5
      have hidx : r.index = r0.index := by rw [← hr1]; rfl
      refine ⟨by omega, hlen, ?_, ?_⟩
      · have := length_cstr_set_zero r0.chars r0.index (by omega)
        rw [← hr1]
        unfold strlen
        simp only [edit_finish]
        omega
      · rcases k2 with ⟨ks, hpre⟩ | hpre
        · exact Or.inl ⟨by omega, hpre⟩
        · exact Or.inr hpre
  · exact loop_stop prompt tail e (by omega)
  · unfold noncanon_input
    have := loop_returns prompt _ stream (edit_init g chars) (Nat.le_refl _)
    cases h : noncanon_loop prompt (stream ++ [10, 10, 10]) (edit_init g chars) with
    | none => rw [h] at this; simp at this
    | some v => rfl
  · obtain ⟨pre, k1, k2⟩ := loop_prefix prompt _ stream _ r0 rest (Nat.le_refl _) hr
    obtain ⟨k3, -⟩ := loop_result prompt _ stream _ r0 rest (Nat.le_refl _) hr
    obtain ⟨-, -, -, h4, -⟩ := hall r0 (List.mem_of_getLast?_eq_some k3)
    simp only [MAX_LINE] at h4
    refine ⟨pre, k1, ?_⟩
    rcases k2 with ⟨ks, hpre⟩ | ⟨ks, hpre⟩
    · exact Or.inl ⟨by omega, hpre⟩
    · exact Or.inr ⟨ks, hpre⟩
  · rw [loop_escape prompt s0 s1 tail e he]
    have hkey : key_escape prompt s0 s1 e = e := by
      unfold key_escape cstr
      rcases h10 with h | h
      · subst h
        simp [cstr]
      · subst h
        by_cases hs0 : s0 = 0
        · simp [hs0]
        · simp [hs0, cstr]
    rw [hkey]
  · by_cases h127 : c = 127
    · rw [h127, loop_erase prompt tail e he]
      simp
    · rw [loop_char prompt c tail e he h10 h127 h27]
      simp [h127]

theorem line_length_bound_witness :
    ∃ r, noncanon_input (bytes "osh:~> ") three_entry_store (List.replicate 80 0)
        recall_then_type = some (r, []) ∧
      r.index ≤ 79 ∧ strlen r.chars ≤ 79 ∧ cstr r.chars = bytes "datex" :=
  have h := line_length_bound (bytes "osh:~> ") three_entry_store (List.replicate 80 0)
    recall_then_type (by decide) (by decide)
  ⟨_, rfl, (h.2.1 _ _ rfl).1, (h.2.1 _ _ rfl).2.2.1, by decide⟩

/-- C11, as stated, fails on the keystrokes 27, 10, 10, `a`, 10: the two newline bytes
that follow the escape byte are read and the reading goes on; the function returns only at
the last newline, with the line `a` and no byte left unread. -/
theorem line_length_bound_counterexample :
    ∃ r, noncanon_input (bytes "osh:~> ") empty_store (List.replicate 80 0)
        [27, 10, 10, 97, 10] = some (r, []) ∧
      cstr r.chars = [97] ∧ r.index = 1 :=
  ⟨_, rfl, by decide, by decide⟩

/-! ## Plain editing -/

theorem take_set_succ {α : Type} (c : α) : ∀ (l : List α) (i : Nat), i < l.length →
    (l.set i c).take (i + 1) = l.take i ++ [c] := by
  intro l
  induction l with
  | nil => intro i h; simp at h
  | cons a l ih =>
    intro i h
    cases i with
    | zero => simp
    | succ i =>
      simp only [List.length_cons] at h
      simp [ih i (by omega)]

theorem cstr_of_take : ∀ (l : Buf) (i : Nat) (s : Str), i < l.length → l.take i = s →
    0 ∉ s → cstr (l.set i 0) = s := by
  intro l
  induction l with
  | nil => intro i s h; simp at h
  | cons a l ih =>
    intro i s h ht h0
    cases i with
    | zero =>
      simp only [List.take_zero] at ht
      simp [cstr, ← ht]
    | succ i =>
      simp only [List.length_cons] at h
      simp only [List.take_succ_cons] at ht
      have ha : a ≠ 0 := by
        intro ha
        apply h0
        rw [← ht, ha]
        exact List.mem_cons_self _ _
      have h0' : 0 ∉ l.take i := by
        intro hm
        apply h0
        rw [← ht]
        exact List.mem_cons_of_mem _ hm
      simp only [List.set_cons_succ, cstr, ha, if_false]
      rw [ih i _ (by omega) rfl h0', ht]

theorem plain_run (prompt : Str) (rest : List Nat) : ∀ (keys : List Nat) (e : Edit) (s : Str),
    e.chars.length = 80 → e.chars.take e.index = s → e.index = s.length → 0 ∉ s →
    (∀ c ∈ keys, plain_key c) →
    (∀ n, n ≤ keys.length → (edit_spec (keys.take n) s).length < 79) →
    ∃ e2, noncanon_loop prompt (keys ++ 10 :: rest) e = some (e2, rest) ∧
      e2.chars.take e2.index = edit_spec keys s ∧ e2.index = (edit_spec keys s).length ∧
      0 ∉ edit_spec keys s ∧ e2.chars.length = 80 ∧ e2.g = e.g := by
  intro keys
  induction keys with
  | nil =>
    intro e s hl ht hi h0 _ hroom
    have h79 : e.index < 79 := by
      have := hroom 0 (Nat.le_refl _)
      simp only [List.take_zero, edit_spec] at this
      omega
    exact ⟨e, loop_newline prompt rest e h79, ht, hi, h0, hl, rfl⟩
  | cons c keys ih =>
    intro e s hl ht hi h0 hk hroom
    have h79 : e.index < 79 := by
      have := hroom 0 (Nat.zero_le _)
      simp only [List.take_zero, edit_spec] at this
      omega
    have hk2 : ∀ x ∈ keys, plain_key x := fun x hx => hk x (List.mem_cons_of_mem _ hx)
    obtain ⟨hc0, hc10, hc27⟩ := hk c (List.mem_cons_self _ _)
    by_cases h127 : c = 127
    · have hroom2 : ∀ n, n ≤ keys.length → (edit_spec (keys.take n) s.dropLast).length < 79 := by
        intro n hn
        have := hroom (n + 1) (by simp only [List.length_cons]; omega)
        simpa [edit_spec, h127] using this
      have h0d : 0 ∉ s.dropLast := fun hm => h0 (List.dropLast_subset s hm)
      by_cases hpos : e.index > 0
      · obtain ⟨e2, k1, k2, k3, k4, k5, k6⟩ := ih (key_erase e) s.dropLast
          (by simpa [key_erase, hpos] using hl)
          (by
            simp only [key_erase, hpos, if_true]
            rw [← ht, List.dropLast_take (by omega)])
          (by simp only [key_erase, hpos, if_true, List.length_dropLast]; omega)
          h0d hk2 hroom2
        refine ⟨e2, ?_, ?_, ?_, ?_, k5, ?_⟩
        · rw [h127, List.cons_append, loop_erase _ _ _ h79]
          exact k1
        · simpa [edit_spec, h127] using k2
        · simpa [edit_spec, h127] using k3
        · simpa [edit_spec, h127] using k4
        · rw [k6]; simp [key_erase, hpos]
      · have hs : s = [] := List.length_eq_zero.mp (by omega)
        have he : key_erase e = e := by simp [key_erase, hpos]
        obtain ⟨e2, k1, k2, k3, k4, k5, k6⟩ := ih e s.dropLast hl
          (by rw [ht, hs]; rfl) (by rw [hi, hs]; rfl) h0d hk2 hroom2
        refine ⟨e2, ?_, ?_, ?_, ?_, k5, k6⟩
        · rw [h127, List.cons_append, loop_erase _ _ _ h79, he]
          exact k1
        · simpa [edit_spec, h127] using k2
        · simpa [edit_spec, h127] using k3
        · simpa [edit_spec, h127] using k4
    · have hroom2 : ∀ n, n ≤ keys.length → (edit_spec (keys.take n) (s ++ [c])).length < 79 := by
        intro n hn
        have := hroom (n + 1) (by simp only [List.length_cons]; omega)
        simpa [edit_spec, h127] using this
      have h0c : 0 ∉ s ++ [c] := by
        intro hm
        rcases List.mem_append.mp hm with h | h
        · exact h0 h
        · exact hc0 (List.mem_singleton.mp h).symm
      obtain ⟨e2, k1, k2, k3, k4, k5, k6⟩ := ih (key_char c e) (s ++ [c])
        (by simpa [key_char] using hl)
        (by
          simp only [key_char]
          rw [take_set_succ c _ _ (by omega), ht])
        (by simp [key_char, hi])
        h0c hk2 hroom2
      refine ⟨e2, ?_, ?_, ?_, ?_, k5, ?_⟩
      · rw [List.cons_append, loop_char _ _ _ _ h79 hc10 h127 hc27]
        exact k1
      · simpa [edit_spec, h127] using k2
      · simpa [edit_spec, h127] using k3
      · simpa [edit_spec, h127] using k4
      · rw [k6]; rfl

/-- C14. Plain editing: for an 80-byte array `chars` and every keystroke stream made of
printable bytes (any byte other than 0, 10, 27, 127) and erase bytes (127), during which
the line never reaches 79 characters, followed by a newline, `noncanon_input` returns, and
the string in the array returned is the one obtained from the empty string by appending
each printable byte and removing the last character at each erase byte (nothing on the
empty string); the history and its count are unchanged. -/
theorem plain_editing (prompt : Str) (g : Globals) (chars : Buf) (keys rest : List Nat)
    (hchars : chars.length = MAX_LINE) (hkeys : ∀ c ∈ keys, plain_key c)
    (hroom : ∀ n, n ≤ keys.length → (edit_spec (keys.take n) []).length < 79) :
    ∃ r, noncanon_input prompt g chars (keys ++ 10 :: rest) = some (r, rest) ∧
      cstr r.chars = edit_spec keys [] ∧
      r.g.history = g.history ∧ r.g.history_count = g.history_count := by
  obtain ⟨e2, k1, k2, k3, k4, k5, k6⟩ := plain_run prompt rest keys (edit_init g chars) []
    (by simp only [MAX_LINE] at hchars; simp [edit_init, memset0, MAX_LINE, hchars])
    (by simp [edit_init]) (by simp [edit_init]) (by simp) hkeys hroom
  refine ⟨edit_finish e2, ?_, ?_, ?_, ?_⟩
  · unfold noncanon_input
    rw [k1]
    rfl
  · have h79 : e2.index < 79 := by
      have := hroom keys.length (Nat.le_refl _)
      rw [List.take_length] at this
      omega
    exact cstr_of_take e2.chars e2.index _ (by omega) k2 k4
  · show e2.g.history = g.history
    rw [k6]; rfl
  · show e2.g.history_count = g.history_count
    rw [k6]; rfl

theorem plain_editing_witness :
    ∃ r, noncanon_input (bytes "osh:~> ") three_entry_store (List.replicate 80 0)
        (plain_keys ++ 10 :: [108, 115]) = some (r, [108, 115]) ∧
      cstr r.chars = bytes "pwd" ∧
      r.g.history = three_entry_store.history ∧
      r.g.history_count = three_entry_store.history_count :=
  plain_editing (bytes "osh:~> ") three_entry_store (List.replicate 80 0) plain_keys
    [108, 115] (by decide) (by decide) (by decide)

/-! ## The history cursor -/

theorem cursor_escape (prompt : Str) (g : Globals) (s0 s1 : Nat) (e : Edit)
    (h : e.g.history = g.history ∧ e.g.history_count = g.history_count ∧
      e.g.history_index ≤ g.history_count) :
    (key_escape prompt s0 s1 e).g.history = g.history ∧
    (key_escape prompt s0 s1 e).g.history_count = g.history_count ∧
    (key_escape prompt s0 s1 e).g.history_index ≤ g.history_count := by
  obtain ⟨h1, h2, h3⟩ := h
  unfold key_escape
  split
  · unfold key_up
    split
    · exact ⟨h1, h2, by simp only [get_history]; omega⟩
    · exact ⟨h1, h2, h3⟩
  · split
    · unfold key_down
      split
      · exact ⟨h1, h2, by simp only [get_history]; omega⟩
      · split
        · exact ⟨h1, h2, by simp only; omega⟩
        · exact ⟨h1, h2, h3⟩
    · exact ⟨h1, h2, h3⟩

/-- C15. History cursor invariant of the line editor: on every history and every
keystroke stream the cursor `history_index` starts at `history_count` and is at most
`history_count` (and, being a natural number, at least 0) in every state at the head of
the loop, the history and its count being unchanged; an up-arrow at cursor 0 or on an
empty history, a down-arrow at cursor `history_count`, and an escape sequence other than
`[A` and `[B` leave the whole state of the editor unchanged, so that the loop goes on from
the same cursor, buffer and `index`. -/
theorem history_cursor_invariant (prompt : Str) (g : Globals) (chars : Buf)
    (stream : List Nat) :
    (edit_init g chars).g.history_index = g.history_count ∧
    (∀ e ∈ noncanon_states prompt stream (edit_init g chars),
      e.g.history_index ≤ g.history_count ∧ e.g.history_count = g.history_count ∧
      e.g.history = g.history) ∧
    (∀ (e : Edit) (rest : List Nat), e.index < 79 →
      e.g.history_index = 0 ∨ e.g.history_count = 0 →
      key_escape prompt 91 65 e = e ∧
      noncanon_loop prompt (27 :: 91 :: 65 :: rest) e = noncanon_loop prompt rest e) ∧
    (∀ (e : Edit) (rest : List Nat), e.index < 79 →
      e.g.history_index = e.g.history_count →
      key_escape prompt 91 66 e = e ∧
      noncanon_loop prompt (27 :: 91 :: 66 :: rest) e = noncanon_loop prompt rest e) ∧
    (∀ (e : Edit) (s0 s1 : Nat) (rest : List Nat), e.index < 79 →
      ¬ (s0 = 91 ∧ s1 = 65) → ¬ (s0 = 91 ∧ s1 = 66) →
      key_escape prompt s0 s1 e = e ∧
      noncanon_loop prompt (27 :: s0 :: s1 :: rest) e = noncanon_loop prompt rest e) := by
  have hstep : ∀ (e : Edit) (s0 s1 : Nat) (rest : List Nat), e.index < 79 →
      key_escape prompt s0 s1 e = e →
      key_escape prompt s0 s1 e = e ∧
      noncanon_loop prompt (27 :: s0 :: s1 :: rest) e = noncanon_loop prompt rest e := by
    intro e s0 s1 rest hi he
    refine ⟨he, ?_⟩
    rw [loop_escape _ _ _ _ _ hi, he]
  refine ⟨rfl, fun e he => ?_, fun e rest hi h => hstep e 91 65 rest hi ?_,
    fun e rest hi h => hstep e 91 66 rest hi ?_,
    fun e s0 s1 rest hi h1 h2 => hstep e s0 s1 rest hi ?_⟩
  · have := states_invariant prompt
      (fun e => e.g.history = g.history ∧ e.g.history_count = g.history_count ∧
        e.g.history_index ≤ g.history_count)
      (fun e he => by unfold key_erase; split <;> exact he)
      (fun c e he _ => he)
      (fun s0 s1 e he => cursor_escape prompt g s0 s1 e he)
      _ stream (edit_init g chars) (Nat.le_refl _) ⟨rfl, rfl, Nat.le_refl _⟩ e he
    exact ⟨this.2.2, this.2.1, this.1⟩
  · have hno : ¬ (e.g.history_count > 0 ∧ e.g.history_index > 0) := by omega
    simp [key_escape, cstr, key_up, hno]
  · have h1 : ¬ (e.g.history_count > 0 ∧ e.g.history_index + 1 < e.g.history_count) := by omega
    have h2 : ¬ (e.g.history_index + 1 = e.g.history_count) := by omega
    simp [key_escape, cstr, key_down, h1, h2]
  · unfold key_escape cstr
    by_cases hs0 : s0 = 0
    · simp [hs0]
    · by_cases hs1 : s1 = 0
      · simp [hs0, hs1, cstr]
      · simp only [hs0, if_false, cstr, hs1]
        simp only [List.cons.injEq, and_true]
        simp [h1, h2]

theorem history_cursor_invariant_witness :
    key_escape (bytes "osh:~> ") 91 65 (edit_init empty_store (List.replicate 80 0)) =
      edit_init empty_store (List.replicate 80 0) ∧
    key_escape (bytes "osh:~> ") 91 66 (edit_init three_entry_store (List.replicate 80 0)) =
      edit_init three_entry_store (List.replicate 80 0) ∧
    key_escape (bytes "osh:~> ") 91 67 (edit_init three_entry_store (List.replicate 80 0)) =
      edit_init three_entry_store (List.replicate 80 0) :=
  have h := history_cursor_invariant (bytes "osh:~> ") three_entry_store
    (List.replicate 80 0) []
  ⟨(h.2.2.1 (edit_init empty_store (List.replicate 80 0)) [] (by decide) (by decide)).1,
    (h.2.2.2.1 (edit_init three_entry_store (List.replicate 80 0)) [] (by decide)
      (by decide)).1,
    (h.2.2.2.2 (edit_init three_entry_store (List.replicate 80 0)) 91 67 [] (by decide)
      (by decide) (by decide)).1⟩
/-! ## The built-in `cd` -/

/-- C12. The built-in `cd`: when `args[0]` is `cd`, `input_cd` returns 1, and the pass
through the loop body of `main` then ends without any call of the engine (no process is
created), also for a line substituted by `!!`; with `args[1]` absent it prints the message of the missing directory and does
not call `chdir`; when `chdir(args[1])` fails it prints the message naming `args[1]` and
the working directory is unchanged; when it succeeds the working directory is the one
`chdir` moved to and nothing is printed. When `args[0]` is a string other than `cd`,
`input_cd` returns 0, prints nothing, calls no `chdir` and the working directory is
unchanged. -/
theorem input_cd_spec (fs : Fs) (cwd : Str) (args : List (Option Str)) :
    (args.getD 0 none = some (bytes "cd") →
      (∃ res, input_cd fs cwd args = some res ∧ res.ret = 1) ∧
      (args.getD 1 none = none →
        input_cd fs cwd args =
          some ⟨1, cwd, bytes "Error: \"cd\" requires a directory\n", []⟩) ∧
      (∀ dir, args.getD 1 none = some dir → fs.chdir cwd dir = none →
        input_cd fs cwd args =
          some ⟨1, cwd, bytes "Error: \"" ++ dir ++ bytes "\" is not a recognized directory\n",
            [dir]⟩) ∧
      (∀ dir d, args.getD 1 none = some dir → fs.chdir cwd dir = some d →
        input_cd fs cwd args = some ⟨1, d, [], [dir]⟩) ∧
      (∀ (os : Os) (s : Session) (input : Buf), strlen input ≠ 0 →
        cstr input ≠ bytes "exit" → (input_prev s.g input).1 = 0 →
        cstr (input_prev s.g input).2.1 ≠ bytes "history" →
        (input_parse (input_prev s.g input).2.1 (parse_init s.args)).map (fun r => r.args) =
          some args →
        (main_body fs os s input).calls = [] ∧
        (main_body fs os s input).flow = Flow.next_line)) ∧
    (∀ a0, args.getD 0 none = some a0 → a0 ≠ bytes "cd" →
      input_cd fs cwd args = some ⟨0, cwd, [], []⟩) := by
  refine ⟨fun h0 => ⟨?_, fun h1 => ?_, fun dir h1 hf => ?_, fun dir d h1 hs => ?_,
    fun os s input k1 k2 k3 k4 hp => ?_⟩, fun a0 h0 hne => ?_⟩
  · unfold input_cd
    rw [h0]
    simp only [if_true]
    cases args.getD 1 none with
    | none => exact ⟨_, rfl, rfl⟩
    | some dir =>
      simp only
      cases fs.chdir cwd dir with
      | none => exact ⟨_, rfl, rfl⟩
      | some d => exact ⟨_, rfl, rfl⟩
  · simp only [input_cd, h0, h1, if_true]
  · simp only [input_cd, h0, h1, hf, if_true]
  · simp only [input_cd, h0, h1, hs, if_true]
  · cases hparse : input_parse (input_prev s.g input).2.1 (parse_init s.args) with
    | none => rw [hparse] at hp; simp at hp
    | some r =>
      rw [hparse] at hp
      simp only [Option.map_some', Option.some.injEq] at hp
      have hcd : ∃ res, input_cd fs s.cwd r.args = some res ∧ res.ret = 1 := by
        unfold input_cd
        rw [hp, h0]
        simp only [if_true]
        cases args.getD 1 none with
        | none => exact ⟨_, rfl, rfl⟩
        | some dir =>
          simp only
          cases fs.chdir s.cwd dir with
          | none => exact ⟨_, rfl, rfl⟩
          | some d => exact ⟨_, rfl, rfl⟩
      obtain ⟨res, hres, hret⟩ := hcd
      simp [main_body, k1, k2, k3, k4, hparse, hres, hret]
  · simp only [input_cd, h0, hne, if_false]

theorem input_cd_spec_witness :
    input_cd tmp_only (bytes "/home") [some (bytes "cd"), some (bytes "/tmp"), none] =
      some ⟨1, bytes "/tmp", [], [bytes "/tmp"]⟩ ∧
    input_cd no_dirs (bytes "/home") [some (bytes "cd"), some (bytes "/tmp"), none] =
      some ⟨1, bytes "/home", bytes "Error: \"/tmp\" is not a recognized directory\n",
        [bytes "/tmp"]⟩ ∧
    input_cd tmp_only (bytes "/home") [some (bytes "cd"), none] =
      some ⟨1, bytes "/home", bytes "Error: \"cd\" requires a directory\n", []⟩ ∧
    input_cd tmp_only (bytes "/home") [some (bytes "ls"), none] =
      some ⟨0, bytes "/home", [], []⟩ :=
  ⟨((input_cd_spec tmp_only (bytes "/home") [some (bytes "cd"), some (bytes "/tmp"), none]).1
      (by decide)).2.2.2.1 (bytes "/tmp") (bytes "/tmp") (by decide) (by decide),
    ((input_cd_spec no_dirs (bytes "/home") [some (bytes "cd"), some (bytes "/tmp"), none]).1
      (by decide)).2.2.1 (bytes "/tmp") (by decide) (by decide),
    ((input_cd_spec tmp_only (bytes "/home") [some (bytes "cd"), none]).1
      (by decide)).2.1 (by decide),
    (input_cd_spec tmp_only (bytes "/home") [some (bytes "ls"), none]).2 (bytes "ls")
      (by decide) (by decide)⟩

/-! ## The history store over a session -/

theorem input_prev_globals (g : Globals) (input : Buf) : (input_prev g input).2.2.1 = g := by
  unfold input_prev
  split_ifs <;> rfl

theorem body_globals (fs : Fs) (os : Os) (s : Session) (input : Buf) :
    (main_body fs os s input).s.g =
      if strlen input = 0 then s.g
      else if cstr input = bytes "exit" then s.g
      else if (input_prev s.g input).1 ≠ 0 then s.g
      else if cstr (input_prev s.g input).2.1 = bytes "history" then s.g
      else add_history s.g (input_prev s.g input).2.1 := by
  unfold main_body
  simp only [input_prev_globals]
  split_ifs
  · rfl
  · rfl
  · rfl
  · rfl
  · cases input_parse (input_prev s.g input).2.1 (parse_init s.args) with
    | none => rfl
    | some r =>
      simp only
      cases input_cd fs s.cwd r.args with
      | none => rfl
      | some cd =>
        simp only
        split_ifs <;> rfl

theorem row_mem_entries (g : Globals) (i : Nat) (hwf : g.wf) (hi : i < g.history_count)
    (hc : g.history_count ≤ MAX_HISTORY) : cstr (g.row i) ∈ g.entries := by
  obtain ⟨hlen, -, -⟩ := hwf
  unfold Globals.entries Globals.row
  apply List.mem_map.mpr
  refine ⟨g.history.getD i [], ?_, rfl⟩
  have hil : i < g.history.length := by omega
  rw [List.getD_eq_getElem _ _ hil]
  rw [List.mem_take_iff_getElem]
  exact ⟨i, by simp only [Nat.lt_min]; exact ⟨hi, hil⟩, rfl⟩

theorem lastN_subset {α : Type} (k : Nat) (l : List α) : ∀ x ∈ lastN k l, x ∈ l := by
  intro x hx
  exact List.mem_of_mem_drop hx

theorem add_history_inv (g : Globals) (input : Buf) (hinv : g.inv)
    (h1 : 1 ≤ strlen input) (h79 : strlen input ≤ 79)
    (he : cstr input ≠ bytes "exit") (hh : cstr input ≠ bytes "history")
    (hb : cstr input ≠ bytes "!!") :
    (add_history g input).inv ∧
    (add_history g input).entries = lastN MAX_HISTORY (g.entries ++ [cstr input]) := by
  obtain ⟨hwf, hc, hent⟩ := hinv
  obtain ⟨k1, k2, k3, -⟩ := add_history_step g input hwf hc (by simp only [MAX_LINE]; omega)
  refine ⟨⟨k3, by rw [k1]; exact Nat.min_le_right _ _, fun t ht => ?_⟩, k2⟩
  rw [k2] at ht
  rcases List.mem_append.mp (lastN_subset _ _ t ht) with h | h
  · exact hent t h
  · rw [List.mem_singleton.mp h]
    exact ⟨h1, h79, he, hh, hb⟩

theorem input_prev_cases (g : Globals) (input : Buf) :
    (cstr input = bytes "!!" ∧ g.history_count = 0 ∧ (input_prev g input).1 = 1) ∨
    (cstr input = bytes "!!" ∧ 0 < g.history_count ∧ (input_prev g input).1 = 0 ∧
      (input_prev g input).2.1 = strcpy input (g.row (g.history_count - 1))) ∨
    (cstr input ≠ bytes "!!" ∧ (input_prev g input).1 = 0 ∧
      (input_prev g input).2.1 = input) := by
  by_cases hb : cstr input = bytes "!!"
  · by_cases h0 : g.history_count = 0
    · exact Or.inl ⟨hb, h0, by simp [input_prev, hb, h0]⟩
    · exact Or.inr (Or.inl ⟨hb, by omega, by simp [input_prev, hb, h0],
        by simp [input_prev, hb, h0]⟩)
  · exact Or.inr (Or.inr ⟨hb, by simp [input_prev, hb], by simp [input_prev, hb]⟩)

theorem body_inv (fs : Fs) (os : Os) (s : Session) (input : Buf) (hinv : s.g.inv)
    (h79 : strlen input ≤ 79) : (main_body fs os s input).s.g.inv := by
  rw [body_globals]
  split_ifs with h0 he hp hh
  · exact hinv
  · exact hinv
  · exact hinv
  · exact hinv
  · rcases input_prev_cases s.g input with ⟨-, -, k⟩ | ⟨-, kc, -, k⟩ | ⟨kb, -, k⟩
    · rw [k] at hp; simp at hp
    · obtain ⟨hwf, hc, hent⟩ := hinv
      have hmem := row_mem_entries s.g (s.g.history_count - 1) hwf (by omega) hc
      obtain ⟨m1, m2, m3, m4, m5⟩ := hent _ hmem
      rw [k]
      exact (add_history_inv s.g _ ⟨hwf, hc, hent⟩
        (by unfold strlen; rw [cstr_strcpy]; exact m1)
        (by unfold strlen; rw [cstr_strcpy]; exact m2)
        (by rw [cstr_strcpy]; exact m3) (by rw [cstr_strcpy]; exact m4)
        (by rw [cstr_strcpy]; exact m5)).1
    · rw [k] at hh ⊢
      exact (add_history_inv s.g input hinv (by omega) h79 he hh kb).1

theorem main_lines_inv (fs : Fs) : ∀ (steps : List (Buf × Os)) (s : Session), s.g.inv →
    (∀ x ∈ steps, strlen x.1 ≤ 79) → (main_lines fs s steps).g.inv := by
  intro steps
  induction steps with
  | nil => intro s hinv _; exact hinv
  | cons x steps ih =>
    intro s hinv hl
    obtain ⟨input, os⟩ := x
    have hb := body_inv fs os s input hinv (hl _ (List.mem_cons_self _ _))
    unfold main_lines
    split
    · exact ih _ hb (fun y hy => hl y (List.mem_cons_of_mem _ hy))
    · exact hb

/-- C13. Session-level history invariant: from the empty store of the start of the
program, after the loop of `main` has processed any sequence of lines of at most 79 bytes,
the store has at most 5 entries, each of between 1 and 79 bytes and none equal to `exit`,
`history` or `!!`; from that state, a pass on an empty line, on `exit`, on `history`, or on
`!!` with an empty history leaves the store unchanged; a pass on any other line other than
`!!` calls `add_history` once on the line as typed, and a pass on `!!` with a non-empty
history calls it once on the newest entry, so that the line becomes the newest entry of
the store. -/
theorem session_history (fs : Fs) (s : Session) (steps : List (Buf × Os)) (hwf : s.g.wf)
    (hempty : s.g.history_count = 0) (hlines : ∀ x ∈ steps, strlen x.1 ≤ 79) :
    (main_lines fs s steps).g.inv ∧
    ∀ (os : Os) (input : Buf), strlen input ≤ 79 →
      (cstr input = [] ∨ cstr input = bytes "exit" ∨ cstr input = bytes "history" ∨
          (cstr input = bytes "!!" ∧ (main_lines fs s steps).g.history_count = 0) →
        (main_body fs os (main_lines fs s steps) input).s.g = (main_lines fs s steps).g) ∧
      (cstr input ≠ [] → cstr input ≠ bytes "exit" → cstr input ≠ bytes "history" →
          cstr input ≠ bytes "!!" →
        (main_body fs os (main_lines fs s steps) input).s.g =
          add_history (main_lines fs s steps).g input ∧
        (main_body fs os (main_lines fs s steps) input).s.g.entries =
          lastN MAX_HISTORY ((main_lines fs s steps).g.entries ++ [cstr input])) ∧
      (cstr input = bytes "!!" → 0 < (main_lines fs s steps).g.history_count →
        (main_body fs os (main_lines fs s steps) input).s.g =
          add_history (main_lines fs s steps).g
            (strcpy input ((main_lines fs s steps).g.row
              ((main_lines fs s steps).g.history_count - 1))) ∧
        (main_body fs os (main_lines fs s steps) input).s.g.entries =
          lastN MAX_HISTORY ((main_lines fs s steps).g.entries ++
            [cstr ((main_lines fs s steps).g.row
              ((main_lines fs s steps).g.history_count - 1))])) := by
  have hstart : s.g.inv := by
    refine ⟨hwf, by rw [hempty]; exact Nat.zero_le _, fun t ht => ?_⟩
    simp [Globals.entries, hempty] at ht
  have hinv := main_lines_inv fs steps s hstart hlines
  refine ⟨hinv, fun os input h79 => ?_⟩
  generalize main_lines fs s steps = t at hinv ⊢
  have hlen0 : strlen input = 0 ↔ cstr input = [] := by
    unfold strlen
    exact List.length_eq_zero
  refine ⟨fun h => ?_, fun h1 h2 h3 h4 => ?_, fun h1 h2 => ?_⟩
  · rw [body_globals]
    rcases h with h | h | h | ⟨h, hc⟩
    · simp [hlen0.mpr h]
    · simp [h]
    · have hp : input_prev t.g input = (0, input, t.g, []) := by
        simp [input_prev, h, bytes]
      simp [hp, h]
    · have hp : (input_prev t.g input).1 = 1 := by simp [input_prev, h, hc]
      simp [hp]
  · have hp : input_prev t.g input = (0, input, t.g, []) := by simp [input_prev, h4]
    have hg : (main_body fs os t input).s.g = add_history t.g input := by
      rw [body_globals]
      simp [hp, h1, h2, h3, hlen0]
    refine ⟨hg, ?_⟩
    rw [hg]
    have hpos : 1 ≤ strlen input := by
      have : strlen input ≠ 0 := fun h => h1 (hlen0.mp h)
      omega
    exact (add_history_inv t.g input hinv hpos h79 h2 h3 h4).2
  · obtain ⟨hwf2, hc, hent⟩ := hinv
    have hmem := row_mem_entries t.g (t.g.history_count - 1) hwf2 (by omega) hc
    obtain ⟨m1, m2, m3, m4, m5⟩ := hent _ hmem
    have hne : t.g.history_count ≠ 0 := by omega
    have hp1 : (input_prev t.g input).1 = 0 := by simp [input_prev, h1, hne]
    have hp2 : (input_prev t.g input).2.1 = strcpy input (t.g.row (t.g.history_count - 1)) := by
      simp [input_prev, h1, hne]
    have hn0 : strlen input ≠ 0 := by
      unfold strlen
      rw [h1]
      decide
    have hne2 : cstr input ≠ bytes "exit" := by rw [h1]; decide
    have hg : (main_body fs os t input).s.g =
        add_history t.g (strcpy input (t.g.row (t.g.history_count - 1))) := by
      rw [body_globals]
      simp [hp1, hp2, hn0, hne2, cstr_strcpy, m4]
    refine ⟨hg, ?_⟩
    rw [hg]
    have := (add_history_inv t.g (strcpy input (t.g.row (t.g.history_count - 1)))
      ⟨hwf2, hc, hent⟩
      (by unfold strlen; rw [cstr_strcpy]; exact m1)
      (by unfold strlen; rw [cstr_strcpy]; exact m2)
      (by rw [cstr_strcpy]; exact m3) (by rw [cstr_strcpy]; exact m4)
      (by rw [cstr_strcpy]; exact m5)).2
    rw [cstr_strcpy] at this
    exact this

theorem session_history_witness :
    (main_lines tmp_only start_session five_lines).g.inv ∧
    (main_lines tmp_only start_session five_lines).g.entries =
      [bytes "ls", bytes "ls", bytes "cd /tmp"] :=
  ⟨(session_history tmp_only start_session five_lines (by unfold Globals.wf; decide)
    (by decide) (by decide)).1, by decide⟩
/-! ## Lines that leave `args[0]` empty -/

/-- C16. The code at the failing input, the line made of one space: the main loop accepts
it (it is not empty and is none of `exit`, `history`, `!!`), `input_parse` leaves
`args[0] = NULL`, so that the stage-one argv is empty, `input_cd` then calls `strcmp` on the
null pointer, and the pass through the loop body has undefined behaviour. The same holds
for the line `&`. -/
theorem blank_line_null_argv :
    strlen (line_buf " ") ≠ 0 ∧ cstr (line_buf " ") ≠ bytes "exit" ∧
    cstr (line_buf " ") ≠ bytes "history" ∧ cstr (line_buf " ") ≠ bytes "!!" ∧
    (∃ r, input_parse (line_buf " ") (parse_init args_blank) = some r ∧
      argv_at r.args 0 = [] ∧ r.args.getD 0 none = none ∧
      input_cd no_dirs (bytes "/home") r.args = none) ∧
    (main_body no_dirs parent_os start_session (line_buf " ")).flow = Flow.undefined ∧
    (main_body no_dirs parent_os start_session (line_buf "&")).flow = Flow.undefined :=
  ⟨by decide, by decide, by decide, by decide, ⟨_, rfl, by decide, by decide, by decide⟩,
    by decide, by decide⟩

/-! ## Capacity of `args` and lines with several pipes -/

theorem last_none_unique {α : Type} : ∀ (A A2 B B2 : List (Option α)),
    A ++ none :: B = A2 ++ none :: B2 → none ∉ B → none ∉ B2 → A = A2 ∧ B = B2 := by
  intro A
  induction A with
  | nil =>
    intro A2 B B2 h hB hB2
    cases A2 with
    | nil => simpa using h
    | cons a A2 =>
      simp only [List.nil_append, List.cons_append, List.cons.injEq] at h
      exact absurd (by rw [h.2]; simp) hB
  | cons a A ih =>
    intro A2 B B2 h hB hB2
    cases A2 with
    | nil =>
      simp only [List.nil_append, List.cons_append, List.cons.injEq] at h
      exact absurd (by rw [← h.2]; simp) hB2
    | cons a2 A2 =>
      simp only [List.cons_append, List.cons.injEq] at h
      obtain ⟨k1, k2⟩ := ih A2 B B2 h.2 hB hB2
      exact ⟨by rw [h.1, k1], k2⟩

/-- C17 (amended). Capacity of `args`: for every input line of at most 79 bytes and an
80-slot array `args`, `input_parse` returns with the final sentinel at an index
`token_index` of at most 40, the array keeps its 80 slots, and every slot above that index
is as it was before the call, so that only indices 0 to 40 are written; the index of the
final sentinel is the number of entries stored in `args`, that is the number of ordinary
tokens that are not redirect targets plus the number of `|` tokens that are not redirect
targets. -/
theorem argv_capacity (input : Buf) (args : List (Option Str))
    (hlen : strlen input + 1 ≤ MAX_LINE) (hargs : args.length = MAX_LINE) :
    ∃ r, input_parse input (parse_init args) = some r ∧
      r.token_index ≤ 40 ∧ r.args.length = 80 ∧
      r.args[r.token_index]? = some none ∧
      (∀ i, r.token_index < i → r.args[i]? = args[i]?) ∧
      r.token_index = (stored (tokens (cstr input))).length ∧
      r.token_index =
        ((stored (tokens (cstr input))).filter (fun x => x.isSome)).length +
        ((stored (tokens (cstr input))).filter (fun x => x.isNone)).length := by
  refine ⟨_, input_parse_eq input (parse_init args), ?_⟩
  obtain ⟨h1, h2, h3, -⟩ := parse_line_stored (cstr input) args hlen hargs
  simp only [MAX_LINE] at hargs
  refine ⟨by rw [h2]; exact h3, ?_, ?_, fun i hi => ?_, h2, ?_⟩
  · rw [h1]
    simp only [List.length_append, List.length_cons, List.length_drop]
    omega
  · rw [h1, h2]
    exact getElem?_append_length _ none _
  · rw [h1]
    rw [h2] at hi
    rw [List.getElem?_append_right (by omega)]
    obtain ⟨k, hk⟩ : ∃ k, i = (stored (tokens (cstr input))).length + 1 + k :=
      ⟨i - (stored (tokens (cstr input))).length - 1, by omega⟩
    subst hk
    have : (stored (tokens (cstr input))).length + 1 + k -
        (stored (tokens (cstr input))).length = k + 1 := by omega
    rw [this, List.getElem?_cons_succ, List.getElem?_drop]
  · rw [h2]
    generalize stored (tokens (cstr input)) = S
    induction S with
    | nil => rfl
    | cons x S ih =>
      cases x <;> simp [List.filter_cons] <;> omega

theorem argv_capacity_witness :
    ∃ r, input_parse (line_buf "cat < in | sort | uniq > out &") (parse_init args_blank) =
        some r ∧
      r.token_index ≤ 40 ∧ r.args.length = 80 ∧
      r.args[r.token_index]? = some none ∧
      r.token_index = 5 :=
  have h := argv_capacity (line_buf "cat < in | sort | uniq > out &") args_blank
    (by decide) (by decide)
  Exists.elim h (fun r hr => ⟨r, hr.1, hr.2.1, hr.2.2.1, hr.2.2.2.1,
    by rw [hr.2.2.2.2.2.1]; decide⟩)

/-- C17, as stated, fails on the line `cat < |`: one ordinary token is not a redirect
target and the line has one `|` token, which makes 2, but the `|` is taken as the input
file and the final sentinel is at index 1. -/
theorem argv_capacity_counterexample :
    tokens (cstr (line_buf "cat < |")) = [bytes "cat", bytes "<", bytes "|"] ∧
    (tokens (cstr (line_buf "cat < |"))).count (bytes "|") = 1 ∧
    ((stored (tokens (cstr (line_buf "cat < |")))).filter (fun x => x.isSome)).length = 1 ∧
    ∃ r, input_parse (line_buf "cat < |") (parse_init args_blank) = some r ∧
      r.token_index = 1 ∧ r.inpRedirFile = some (bytes "|") ∧ r.pipe_index = -1 :=
  ⟨by decide, by decide, by decide, _, rfl, by decide, by decide, by decide⟩

/-- C18. Lines with several `|` tokens: when the entries stored in `args` are the tokens
`P`, a `|`, further entries `M`, a last `|` and the tokens `Q` (so that the line has at
least two `|` tokens not taken as redirect targets), `input_parse` returns with `args`
holding those entries, a `NULL` at the place of every `|`, followed by the final sentinel;
`pipe_index` is the index of the last `|`, the stage-one argv read at index 0 is `P`, the
tokens before the first `|`, and the stage-two argv read at `pipe_index + 1` is `Q`, the
tokens after the last `|`; the entries `M` between the two belong to neither. -/
theorem several_pipes (input : Buf) (args : List (Option Str)) (P Q : List Str)
    (M : List (Option Str))
    (hlen : strlen input + 1 ≤ MAX_LINE) (hargs : args.length = MAX_LINE)
    (hS : stored (tokens (cstr input)) = P.map some ++ none :: (M ++ none :: Q.map some)) :
    ∃ r, input_parse input (parse_init args) = some r ∧
      r.args.take (r.token_index + 1) =
        P.map some ++ none :: (M ++ none :: (Q.map some ++ [none])) ∧
      r.pipe_index = ((P.length + 1 + M.length : Nat) : Int) ∧
      argv_at r.args 0 = P ∧
      argv_at r.args (P.length + 1 + M.length + 1) = Q := by
  refine ⟨_, input_parse_eq input (parse_init args), ?_⟩
  obtain ⟨h1, h2, h3, h4⟩ := parse_line_stored (cstr input) args hlen hargs
  have hQ : none ∉ Q.map some := by simp
  rw [hS] at h1 h2 h4
  refine ⟨?_, ?_, ?_, ?_⟩
  · rw [h1, h2]
    generalize List.drop _ args = tail
    have : P.map some ++ none :: (M ++ none :: Q.map some) ++ none :: tail =
        (P.map some ++ none :: (M ++ none :: (Q.map some ++ [none]))) ++ tail := by simp
    rw [this, List.take_left' (by simp; omega)]
  · rcases h4 with ⟨hno, -⟩ | ⟨A, B, hAB, hB, hk⟩
    · exact absurd (by simp) hno
    · have hsplit : P.map some ++ none :: (M ++ none :: Q.map some) =
          (P.map some ++ none :: M) ++ none :: Q.map some := by simp
      rw [hsplit] at hAB
      obtain ⟨k1, -⟩ := last_none_unique _ _ _ _ hAB hQ hB
      rw [hk, ← k1]
      simp
      omega
  · rw [h1, List.append_assoc]
    exact argv_at_somes P _
  · rw [h1]
    generalize List.drop _ args = tail
    have hskip := argv_at_skip (P.map some ++ none :: (M ++ [none]))
      (Q.map some ++ none :: tail)
    simp only [List.length_append, List.length_map, List.length_cons,
      List.length_singleton, List.length_nil] at hskip
    have hre : P.map some ++ none :: (M ++ none :: Q.map some) ++ none :: tail =
        (P.map some ++ none :: (M ++ [none])) ++ (Q.map some ++ none :: tail) := by simp
    have hidx : P.length + 1 + M.length + 1 = P.length + (M.length + (0 + 1) + 1) := by omega
    rw [hre, hidx, hskip]
    exact argv_at_somes Q _

theorem several_pipes_witness :
    ∃ r, input_parse (line_buf "cat f | sort & | uniq -c") (parse_init args_blank) = some r ∧
      r.args.take (r.token_index + 1) =
        [some (bytes "cat"), some (bytes "f"), none, some (bytes "sort"), none,
          some (bytes "uniq"), some (bytes "-c"), none] ∧
      r.pipe_index = 4 ∧
      argv_at r.args 0 = [bytes "cat", bytes "f"] ∧
      argv_at r.args 5 = [bytes "uniq", bytes "-c"] :=
  several_pipes (line_buf "cat f | sort & | uniq -c") args_blank [bytes "cat", bytes "f"]
    [bytes "uniq", bytes "-c"] [some (bytes "sort")] (by decide) (by decide) (by decide)
/-! ## Redirections and `&` on lines with any spacing -/

/-- C3 (amended). Parsing redirection and background: a line without `|` token is read
left to right as ordinary tokens, `&` tokens, and pairs `< f`, `> g` in which the token
after the operator is the file whatever it is; the tokens may be separated by any number
of spaces, also in front of the first and behind the last. With at most one `<` pair and at
most one `>` pair, `input_parse` returns with argv equal to the ordinary tokens in their
order,
`inpRedirFile = f` if there is a `<` pair and `NULL` otherwise, `outpRedirFile = g` if there
is a `>` pair and `NULL` otherwise, `bkgd = 1` exactly when an `&` occurs outside the file
position of a pair (`bkgd = 0` otherwise), and `pipe_index = -1`. -/
theorem parse_redirect (items : List Item) (input : Buf) (args : List (Option Str))
    (hvalid : ∀ it ∈ items, it.valid)
    (hin1 : (item_ins items).length ≤ 1) (hout1 : (item_outs items).length ≤ 1)
    (hline : tokens (cstr input) = item_tokens items)
    (hlen : strlen input + 1 ≤ MAX_LINE) (hargs : args.length = MAX_LINE) :
    ∃ r, input_parse input (parse_init args) = some r ∧
      argv_at r.args 0 = item_words items ∧
      r.inpRedirFile = (item_ins items).head? ∧
      r.outpRedirFile = (item_outs items).head? ∧
      r.bkgd = (if Item.amp ∈ items then 1 else 0) ∧
      r.pipe_index = -1 := by
  have hcount := length_tokens _ (cstr input) (Nat.le_refl _)
  have hwords := length_item_words items
  rw [hline] at hcount
  unfold strlen at hlen
  simp only [MAX_LINE] at hcount hlen hargs
  obtain ⟨y, hy⟩ : ∃ y, args.drop (item_words items).length =
      y :: args.drop ((item_words items).length + 1) :=
    ⟨args[(item_words items).length], List.drop_eq_getElem_cons (by omega)⟩
  have hset := set_append_length ((item_words items).map some) y none
    (args.drop ((item_words items).length + 1))
  rw [List.length_map] at hset
  have hr : parse_line (cstr input) (parse_init args) =
      { args := (item_words items).map some ++ none ::
          args.drop ((item_words items).length + 1)
        bkgd := item_bkgd items 0
        inpRedirFile := item_in items none
        outpRedirFile := item_out items none
        pipe_index := -1
        token_index := (item_words items).length } := by
    unfold parse_line
    rw [hline]
    rw [parse_tokens_items items [] args _ hvalid rfl rfl (by omega)]
    simp only [parse_init, List.nil_append, List.length_nil, Nat.zero_add, hy, hset]
  refine ⟨_, input_parse_eq input (parse_init args), ?_⟩
  rw [hr]
  refine ⟨argv_at_somes _ _, item_in_eq items hin1, item_out_eq items hout1, ?_, rfl⟩
  by_cases ha : Item.amp ∈ items
  · simp only [ha, if_true]
    exact item_bkgd_of_mem items 0 ha
  · simp only [ha, if_false]
    exact item_bkgd_of_not_mem items 0 ha

theorem parse_redirect_witness :
    (∃ r, input_parse (line_buf "sort < in.txt > out.txt &") (parse_init args_blank) = some r ∧
      argv_at r.args 0 = [bytes "sort"] ∧
      r.inpRedirFile = some (bytes "in.txt") ∧
      r.outpRedirFile = some (bytes "out.txt") ∧
      r.bkgd = 1 ∧ r.pipe_index = -1) ∧
    (∃ r, input_parse (line_buf "  sort  -r  <  in.txt   & ") (parse_init args_blank) = some r ∧
      argv_at r.args 0 = [bytes "sort", bytes "-r"] ∧
      r.inpRedirFile = some (bytes "in.txt") ∧
      r.outpRedirFile = none ∧
      r.bkgd = 1 ∧ r.pipe_index = -1) :=
  ⟨parse_redirect
      [Item.word (bytes "sort"), Item.input (bytes "in.txt"), Item.output (bytes "out.txt"),
        Item.amp]
      (line_buf "sort < in.txt > out.txt &") args_blank (by decide) (by decide) (by decide)
      (by decide) (by decide) (by decide),
    parse_redirect
      [Item.word (bytes "sort"), Item.word (bytes "-r"), Item.input (bytes "in.txt"), Item.amp]
      (line_buf "  sort  -r  <  in.txt   & ") args_blank (by decide) (by decide) (by decide)
      (by decide) (by decide) (by decide)⟩

/-- C3, as stated, fails on the line `sort < &`: it has no `|` token, one `<` pair, and an
`&` token occurs in it, yet `input_parse` leaves `bkgd = 0`; the `&` is taken as the input
file. -/
theorem parse_redirect_counterexample :
    bytes "&" ∈ tokens (cstr (line_buf "sort < &")) ∧
    bytes "|" ∉ tokens (cstr (line_buf "sort < &")) ∧
    ∃ r, input_parse (line_buf "sort < &") (parse_init args_blank) = some r ∧
      r.bkgd = 0 ∧ r.inpRedirFile = some (bytes "&") ∧ argv_at r.args 0 = [bytes "sort"] :=
  ⟨by decide, by decide, _, rfl, by decide, by decide, by decide⟩
end Shell
